import Mathlib

/-!
Verification of the generic hash-map container of this repository
(the `HashMap` class template found in `src/cpp_ex2`, declared alongside
`Fractal.h`; constants `LOWER_LOAD_FACTOR = 1.0/4`, `UPPER_LOAD_FACTOR = 3.0/4`,
`INIT_CAPACITY = 16`, `MIN_CAPACITY = 1`, `TABLE_SIZE_FACTOR = 2`).

The C++ class stores `int _nElements`, `int _capacity` and a heap array
`Bucket *_hashTable` where `Bucket = vector<pair<KeyT, ValueT>>`.  We embed it
shallowly: the two non-negative counters become `Nat`, the owned array becomes a
`List` of buckets, a bucket becomes a `List` of key/value pairs (preserving
insertion order, exactly as `vector::push_back` does), and `std::hash<KeyT>` is
an arbitrary parameter `hashFn : K → Nat`.  Operations that throw
(`_getPairByKey`, `at`, `bucketSize`, `bucketIndex`, the two-vector
constructor) return `Option`/`Except` instead.

Load-factor comparisons in the C++ code are performed on `double`s:
`size() / (double) capacity()` compared against `3.0/4` and `1.0/4`.  Because
the capacity is a power of two (so the quotient is exact in binary floating
point for all representable sizes) these comparisons coincide with the exact
rational comparisons `4 * size > 3 * capacity` and `4 * size < capacity`,
which is how we embed them.

`_resizeTable` re-inserts every element through the public `insert`, which may
itself (in principle) call `_resizeTable` again; the recursion is embedded
with an explicit nesting-depth budget (`insertF`/`resizeF`).  The public
`insert`/`erase` use budget 2; the development proves that under the map
invariant a re-insertion performed by `_resizeTable` never triggers a nested
resize, so the budget is never exhausted and the embedding computes exactly
what the C++ recursion computes.
-/

namespace HashMapSpec

/-- One collision list: C++ `typedef vector<_pair> Bucket`. -/
abbrev Bucket (K V : Type) := List (K × V)

/-- State of a `HashMap<KeyT, ValueT>` object: `int _nElements`,
`int _capacity`, and the owned bucket array `Bucket *_hashTable`. -/
structure HashMap (K V : Type) where
  nElements : Nat
  capacity : Nat
  hashTable : List (Bucket K V)

/-- Macro `INIT_CAPACITY` (16). -/
def INIT_CAPACITY : Nat := 16

/-- Macro `MIN_CAPACITY` (1). -/
def MIN_CAPACITY : Nat := 1

/-- Replace the element at position `i` of a list by `f` of it (out-of-range
index leaves the list unchanged); used to mutate one bucket of the array. -/
def modifyIdx {α : Type} : List α → Nat → (α → α) → List α
  | [], _, _ => []
  | a :: rest, 0, f => f a :: rest
  | a :: rest, i + 1, f => a :: modifyIdx rest i f

variable {K V : Type} [DecidableEq K] (hashFn : K → Nat)

/-- Method `_hash`: `std::hash<KeyT>()(key) & (capacity() - 1)`. -/
def hashIdx (m : HashMap K V) (key : K) : Nat :=
  hashFn key &&& (m.capacity - 1)

/-- The bucket `_hashTable[_hash(key)]` that `key` routes to. -/
def bucketOf (m : HashMap K V) (key : K) : Bucket K V :=
  m.hashTable.getD (hashIdx hashFn m key) []

/-- The scan loop of `_getPairByKey`: walk the bucket with an index `i`,
returning the first pair whose `first` equals the key together with its
`idxInBucket`. -/
def findWithIdx (key : K) : Bucket K V → Option ((K × V) × Nat)
  | [] => none
  | p :: rest =>
    if p.1 = key then some (p, 0)
    else (findWithIdx key rest).map (fun q => (q.1, q.2 + 1))

/-- Method `_getPairByKey`: the returned `ElemMeta` (pair + `idxInBucket`), or
`none` in place of the thrown `std::out_of_range`. -/
def getPairByKey (m : HashMap K V) (key : K) : Option ((K × V) × Nat) :=
  findWithIdx key (bucketOf hashFn m key)

/-- Method `containsKey`: probes `_getPairByKey` and reports whether it
succeeded. -/
def containsKey (m : HashMap K V) (key : K) : Bool :=
  (getPairByKey hashFn m key).isSome

/-- Methods `at` (both overloads): the value of the pair found by
`_getPairByKey`, or `none` in place of the thrown `std::out_of_range`. -/
def atKey (m : HashMap K V) (key : K) : Option V :=
  (getPairByKey hashFn m key).map (fun q => q.1.2)

/-- The mutation steps of `insert` before the load-factor check:
`_nElements++` and `_hashTable[_hash(key)].push_back({key, value})`. -/
def pushEntry (m : HashMap K V) (key : K) (value : V) : HashMap K V :=
  { nElements := m.nElements + 1
    capacity := m.capacity
    hashTable := modifyIdx m.hashTable (hashIdx hashFn m key) (fun b => b ++ [(key, value)]) }

/-- The private constructor `HashMap(const int capacity)`: zero elements and
`new Bucket[capacity]`, an array of `capacity` empty buckets. -/
def mkRaw (c : Nat) : HashMap K V :=
  ⟨0, c, List.replicate c []⟩

/-- The public default constructor: `HashMap() : HashMap(INIT_CAPACITY)`. -/
def mkDefault : HashMap K V :=
  mkRaw INIT_CAPACITY

/-- Traversal order of the `const_iterator`: `_nextBucket` skips empty buckets
in ascending index order (an empty bucket contributes nothing), and inside a
bucket `_nextPair` walks the pairs in storage order. -/
def iterBuckets : List (Bucket K V) → List (K × V)
  | [] => []
  | b :: rest => if b.isEmpty then iterBuckets rest else b ++ iterBuckets rest

/-- The full element sequence produced by iterating from `cbegin()` to
`cend()`. -/
def toList (m : HashMap K V) : List (K × V) :=
  iterBuckets m.hashTable

/-- Body of method `insert`, parameterized by the resize routine `rs` invoked
when the load factor exceeds the bound: if `containsKey` return `false`;
otherwise increment the count, push the pair into its bucket, and if
`getLoadFactor() > UPPER_LOAD_FACTOR` (i.e. `4 * size > 3 * capacity`, see
the header comment) resize to `capacity() * TABLE_SIZE_FACTOR`. -/
def insertWith (rs : HashMap K V → Nat → HashMap K V)
    (m : HashMap K V) (key : K) (value : V) : HashMap K V × Bool :=
  if containsKey hashFn m key then (m, false)
  else
    let m1 := pushEntry hashFn m key value
    if 4 * m1.nElements > 3 * m1.capacity then
      (rs m1 (m1.capacity * 2), true)
    else (m1, true)

/-- Method `_resizeTable(newSize)`, with an explicit budget `f` for the depth
of nested resizes: when `size() <= newSize && newSize >= MIN_CAPACITY`, build
`HashMap(newSize)` and re-`insert` every element in iteration order, then
move-assign the result over `*this`; otherwise do nothing.  The re-inserted
elements run the full `insert`, whose own resize gets one budget level less. -/
def resizeF : Nat → HashMap K V → Nat → HashMap K V
  | 0, m, _ => m
  | f + 1, m, newSize =>
    if m.nElements ≤ newSize ∧ MIN_CAPACITY ≤ newSize then
      (toList m).foldl (fun acc p => (insertWith hashFn (resizeF f) acc p.1 p.2).1)
        (mkRaw newSize)
    else m

/-- Method `insert` at resize budget `f`. -/
def insertF (f : Nat) : HashMap K V → K → V → HashMap K V × Bool :=
  insertWith hashFn (resizeF hashFn f)

/-- Public `insert`.  Budget 2 is enough for the real recursion: the re-insert
loop of a resize never drives the load factor of the fresh table above the
bound (`foldIns_spec` below runs it entirely through the no-resize branch of
`insert`), so a nested resize never fires and the budget is never consumed
past the first level. -/
def insert (m : HashMap K V) (key : K) (value : V) : HashMap K V × Bool :=
  insertF hashFn 2 m key value

/-- Method `erase`: on a missing key `_getPairByKey` throws and the catch
block returns `false` with the map untouched; on a present key the pair is
removed from its bucket at `idxInBucket`, `_nElements` is decremented, and if
`getLoadFactor() < LOWER_LOAD_FACTOR` (i.e. `4 * size < capacity`) the table
is resized to `capacity() / TABLE_SIZE_FACTOR`. -/
def erase (m : HashMap K V) (key : K) : HashMap K V × Bool :=
  match getPairByKey hashFn m key with
  | none => (m, false)
  | some q =>
    let m1 : HashMap K V :=
      { nElements := m.nElements - 1
        capacity := m.capacity
        hashTable := modifyIdx m.hashTable (hashIdx hashFn m key) (fun b => b.eraseIdx q.2) }
    if 4 * m1.nElements < m1.capacity then
      (resizeF hashFn 2 m1 (m1.capacity / 2), true)
    else (m1, true)

/-- Method `clear`: empty every bucket, set `_nElements = 0`, capacity
unchanged. -/
def clear (m : HashMap K V) : HashMap K V :=
  { nElements := 0
    capacity := m.capacity
    hashTable := m.hashTable.map (fun _ => ([] : Bucket K V)) }

/-- Method `bucketIndex`: throws (`none`) when `containsKey` fails, otherwise
returns `_hash(key)`. -/
def bucketIndex (m : HashMap K V) (key : K) : Option Nat :=
  if containsKey hashFn m key then some (hashIdx hashFn m key) else none

/-- Method `bucketSize`: `_hashTable[bucketIndex(key)].size()`, propagating
the `bucketIndex` failure. -/
def bucketSize (m : HashMap K V) (key : K) : Option Nat :=
  (bucketIndex hashFn m key).map (fun i => (m.hashTable.getD i []).length)

/-- The const access operator `operator[](key) const`: the value found by
`_getPairByKey`, and on the thrown miss `cbegin()->second`, i.e. the value of
the first entry in iteration order.  On an empty map `cbegin()` is the end
sentinel and dereferencing it is undefined in C++; that case is outside the
model and yields `none` here. -/
def constGet (m : HashMap K V) (key : K) : Option V :=
  match getPairByKey hashFn m key with
  | some q => some q.1.2
  | none => ((toList m).head?).map Prod.snd

/-- Effect on one bucket of assigning through the reference returned by
`_getPairByKey`: the first pair whose key matches has its `second` replaced
in place. -/
def setValueInBucket (key : K) (value : V) : Bucket K V → Bucket K V
  | [] => []
  | p :: rest =>
    if p.1 = key then (p.1, value) :: rest
    else p :: setValueInBucket key value rest

/-- Overwrite, in place, the value of the pair `_getPairByKey(key)` refers to:
the table with `key`'s bucket rewritten by `setValueInBucket`. -/
def setValueMap (m : HashMap K V) (key : K) (value : V) : HashMap K V :=
  { m with hashTable := modifyIdx m.hashTable (hashIdx hashFn m key) (setValueInBucket key value) }

/-- One step `(*this)[keys[i]] = values[i]` of the two-vector constructor:
`operator[]` returns a reference to the stored value — inserting the key with
a default-constructed value first when absent (possibly resizing) — and the
assignment overwrites that stored value. -/
def bracketAssign [Inhabited V] (m : HashMap K V) (key : K) (value : V) : HashMap K V :=
  match getPairByKey hashFn m key with
  | some _ => setValueMap hashFn m key value
  | none => setValueMap hashFn (insert hashFn m key (default : V)).1 key value

/-- The two-vector constructor `HashMap(keys, values)`: starts from
`HashMap(INIT_CAPACITY)`, throws `std::invalid_argument` when the lengths
differ, and otherwise performs `(*this)[keys[i]] = values[i]` for `i`
ascending. -/
def fromVectors [Inhabited V] (keys : List K) (values : List V) :
    Except String (HashMap K V) :=
  if keys.length ≠ values.length then
    Except.error "HashMap: the input vectors should be in the same size."
  else
    Except.ok ((keys.zip values).foldl (fun m p => bracketAssign hashFn m p.1 p.2) (mkRaw INIT_CAPACITY))

/-- Specification-side description of the two-vector constructor result: the
value attached to the last occurrence of `key` in the pair list, if any
(duplicate keys resolve to the last value supplied). -/
def lastWrite (key : K) : List (K × V) → Option V
  | [] => none
  | p :: rest =>
    match lastWrite key rest with
    | some v => some v
    | none => if p.1 = key then some p.2 else none

/-- A `HashMap` object whose `_hashTable` pointer may be null (`none`), as
left behind by the move constructor. -/
structure MovableMap (K V : Type) where
  nElements : Nat
  capacity : Nat
  hashTable : Option (List (Bucket K V))

/-- View an ordinary map as a `MovableMap` owning its array. -/
def toMovable (m : HashMap K V) : MovableMap K V :=
  ⟨m.nElements, m.capacity, some m.hashTable⟩

/-- Method `size()` (reads `_nElements`), meaningful also on a moved-from
object. -/
def msize (m : MovableMap K V) : Nat := m.nElements

/-- Method `empty()` (`_nElements == 0`). -/
def mempty (m : MovableMap K V) : Bool := m.nElements == 0

/-- The move constructor `HashMap(HashMap && other)`, line by line:
`_hashTable = other._hashTable; other._hashTable = nullptr;
_nElements = other.size(); _capacity = other.capacity();` — note that
`other.size()` is read after the pointer was nulled, but it reads the
untouched `_nElements` field.  Returns (destination, source-after-move). -/
def moveCtor (other : MovableMap K V) : MovableMap K V × MovableMap K V :=
  let destTable := other.hashTable
  let other1 : MovableMap K V := { other with hashTable := none }
  let dest : MovableMap K V :=
    { nElements := msize other1, capacity := other1.capacity, hashTable := destTable }
  (dest, other1)

/-- Structural well-formedness of a map state, maintained by every public
operation: the array has `_capacity` buckets, the capacity is a power of two,
`_nElements` counts the stored pairs, every pair sits in the bucket its key
hashes to, and no key is stored twice. -/
def WF (m : HashMap K V) : Prop :=
  m.hashTable.length = m.capacity ∧
  (∃ k, m.capacity = 2 ^ k) ∧
  m.nElements = (m.hashTable.map List.length).sum ∧
  (∀ i < m.capacity, ∀ p ∈ m.hashTable.getD i [], hashIdx hashFn m p.1 = i) ∧
  ((toList m).map Prod.fst).Nodup

/-- The load-factor upper bound `size()/capacity() ≤ 3/4` that actually holds
after every mutating call (the strict trigger is `> 3/4`). -/
def LoadInv (m : HashMap K V) : Prop :=
  4 * m.nElements ≤ 3 * m.capacity

/-! ### List-level helper lemmas -/

theorem iterBuckets_eq_flatten (l : List (Bucket K V)) : iterBuckets l = l.flatten := by
  induction l with
  | nil => rfl
  | cons b rest ih =>
    simp only [iterBuckets, List.flatten_cons]
    by_cases hb : b.isEmpty
    · rw [if_pos hb, ih, List.isEmpty_iff.mp hb, List.nil_append]
    · rw [if_neg hb, ih]

theorem toList_eq_flatten (m : HashMap K V) : toList m = m.hashTable.flatten :=
  iterBuckets_eq_flatten m.hashTable

theorem modifyIdx_length {α : Type} (l : List α) (i : Nat) (f : α → α) :
    (modifyIdx l i f).length = l.length := by
  induction l generalizing i with
  | nil => rfl
  | cons a rest ih =>
    cases i with
    | zero => rfl
    | succ n => simp [modifyIdx, ih]

theorem self_eq_take_append_drop {α : Type} (l : List α) (i : Nat) (h : i < l.length) :
    l = l.take i ++ [l[i]] ++ l.drop (i + 1) := by
  conv_lhs => rw [← List.take_append_drop i l]
  rw [List.drop_eq_getElem_cons h]
  simp

theorem modifyIdx_eq_append {α : Type} (l : List α) (i : Nat) (f : α → α) (h : i < l.length) :
    modifyIdx l i f = l.take i ++ [f l[i]] ++ l.drop (i + 1) := by
  induction l generalizing i with
  | nil => simp at h
  | cons a rest ih =>
    cases i with
    | zero => simp [modifyIdx]
    | succ n =>
      simp only [List.length_cons] at h
      have hn : n < rest.length := by omega
      simp [modifyIdx, ih n hn]

theorem getD_modifyIdx_self {α : Type} (l : List α) (i : Nat) (f : α → α) (d : α)
    (h : i < l.length) : (modifyIdx l i f).getD i d = f (l.getD i d) := by
  induction l generalizing i with
  | nil => simp at h
  | cons a rest ih =>
    cases i with
    | zero => rfl
    | succ n =>
      simp only [List.length_cons] at h
      simpa [modifyIdx] using ih n (by omega)

theorem getD_modifyIdx_ne {α : Type} (l : List α) (i j : Nat) (f : α → α) (d : α)
    (h : j ≠ i) : (modifyIdx l i f).getD j d = l.getD j d := by
  induction l generalizing i j with
  | nil => rfl
  | cons a rest ih =>
    cases i with
    | zero =>
      cases j with
      | zero => exact absurd rfl h
      | succ jn => rfl
    | succ n =>
      cases j with
      | zero => rfl
      | succ jn => simpa [modifyIdx] using ih n jn (by omega)

theorem findWithIdx_eq_none (key : K) (b : Bucket K V) :
    findWithIdx key b = none ↔ ∀ p ∈ b, p.1 ≠ key := by
  induction b with
  | nil => simp [findWithIdx]
  | cons p rest ih =>
    by_cases hp : p.1 = key
    · simp [findWithIdx, hp]
    · simp [findWithIdx, hp, Option.map_eq_none', ih]

theorem isSome_map_opt {α β : Type} (o : Option α) (f : α → β) :
    (o.map f).isSome = o.isSome := by
  cases o <;> rfl

theorem findWithIdx_isSome (key : K) (b : Bucket K V) :
    (findWithIdx key b).isSome = true ↔ ∃ p ∈ b, p.1 = key := by
  induction b with
  | nil => simp [findWithIdx]
  | cons p rest ih =>
    by_cases hp : p.1 = key
    · simp [findWithIdx, hp]
    · simp only [findWithIdx, hp, if_false]
      rw [isSome_map_opt]
      rw [ih]
      constructor
      · rintro ⟨q, hq, hq1⟩
        exact ⟨q, List.mem_cons_of_mem p hq, hq1⟩
      · rintro ⟨q, hq, hq1⟩
        rcases List.mem_cons.mp hq with rfl | hq'
        · exact absurd hq1 hp
        · exact ⟨q, hq', hq1⟩

theorem findWithIdx_some_getElem (key : K) (b : Bucket K V) (q : (K × V) × Nat)
    (h : findWithIdx key b = some q) :
    q.1.1 = key ∧ ∃ hlt : q.2 < b.length, b[q.2] = q.1 := by
  induction b generalizing q with
  | nil => simp [findWithIdx] at h
  | cons p rest ih =>
    by_cases hp : p.1 = key
    · simp only [findWithIdx, hp, if_true, Option.some.injEq] at h
      subst h
      exact ⟨hp, by simp, rfl⟩
    · simp only [findWithIdx, hp, if_false, Option.map_eq_some'] at h
      obtain ⟨q1, hq1, hq2⟩ := h
      obtain ⟨ha, hlt, hget⟩ := ih q1 hq1
      subst hq2
      refine ⟨ha, by simpa using hlt, by simpa using hget⟩

theorem findWithIdx_mem (key : K) (b : Bucket K V) (q : (K × V) × Nat)
    (h : findWithIdx key b = some q) : q.1 ∈ b := by
  obtain ⟨-, hlt, hget⟩ := findWithIdx_some_getElem key b q h
  exact hget ▸ List.getElem_mem hlt

theorem findWithIdx_of_mem_nodup (key : K) (v : V) (b : Bucket K V)
    (hnd : (b.map Prod.fst).Nodup) (hmem : (key, v) ∈ b) :
    ∃ i, findWithIdx key b = some ((key, v), i) := by
  induction b with
  | nil => simp at hmem
  | cons p rest ih =>
    rcases List.mem_cons.mp hmem with heq | hmem'
    · exact ⟨0, by simp [findWithIdx, ← heq]⟩
    · rw [List.map_cons] at hnd
      obtain ⟨hnotin, hnd2⟩ := List.nodup_cons.mp hnd
      by_cases hp : p.1 = key
      · exfalso
        have hk : key ∈ rest.map Prod.fst := by
          have := List.mem_map_of_mem Prod.fst hmem'
          simpa using this
        exact hnotin (hp ▸ hk)
      · obtain ⟨i, hi⟩ := ih hnd2 hmem'
        exact ⟨i + 1, by simp [findWithIdx, hp, hi]⟩

theorem setValue_map_fst (key : K) (value : V) (b : Bucket K V) :
    (setValueInBucket key value b).map Prod.fst = b.map Prod.fst := by
  induction b with
  | nil => rfl
  | cons p rest ih =>
    by_cases hp : p.1 = key
    · simp [setValueInBucket, hp]
    · simp [setValueInBucket, hp, ih]

theorem setValue_length (key : K) (value : V) (b : Bucket K V) :
    (setValueInBucket key value b).length = b.length := by
  have := congrArg List.length (setValue_map_fst key value b)
  simpa using this

theorem findWithIdx_setValue_self (key : K) (value : V) (b : Bucket K V)
    (hmem : key ∈ b.map Prod.fst) :
    ∃ i, findWithIdx key (setValueInBucket key value b) = some ((key, value), i) := by
  induction b with
  | nil => simp at hmem
  | cons p rest ih =>
    by_cases hp : p.1 = key
    · refine ⟨0, ?_⟩
      simp [setValueInBucket, hp, findWithIdx]
    · have hk : key ∈ rest.map Prod.fst := by
        simp only [List.map_cons, List.mem_cons] at hmem
        rcases hmem with h | h
        · exact absurd h.symm hp
        · exact h
      obtain ⟨i, hi⟩ := ih hk
      exact ⟨i + 1, by simp [setValueInBucket, hp, findWithIdx, hi]⟩

theorem findWithIdx_setValue_ne (key k2 : K) (value : V) (b : Bucket K V) (hne : k2 ≠ key) :
    findWithIdx k2 (setValueInBucket key value b) = findWithIdx k2 b := by
  induction b with
  | nil => rfl
  | cons p rest ih =>
    by_cases hp : p.1 = key
    · have hkk2 : ¬ key = k2 := fun h => hne h.symm
      simp [setValueInBucket, hp, findWithIdx, hkk2]
    · by_cases hk2 : p.1 = k2
      · simp [setValueInBucket, hp, findWithIdx, hk2, hne]
      · simp [setValueInBucket, hp, findWithIdx, hk2, ih]

theorem setValue_mem_fst (key : K) (value : V) (b : Bucket K V) (p : K × V)
    (h : p ∈ setValueInBucket key value b) : p.1 ∈ b.map Prod.fst := by
  have : p.1 ∈ (setValueInBucket key value b).map Prod.fst := List.mem_map_of_mem Prod.fst h
  rwa [setValue_map_fst] at this

/-! ### Map-level characterization lemmas -/

theorem capacity_pos {m : HashMap K V} (h : ∃ k, m.capacity = 2 ^ k) : 0 < m.capacity := by
  obtain ⟨k, hk⟩ := h
  exact hk ▸ Nat.pos_pow_of_pos k (by omega)

theorem hashIdx_lt (m : HashMap K V) (key : K) (h : ∃ k, m.capacity = 2 ^ k) :
    hashIdx hashFn m key < m.capacity := by
  have hpos := capacity_pos h
  have hle := @Nat.and_le_right (hashFn key) (m.capacity - 1)
  unfold hashIdx
  omega

theorem wf_length {m : HashMap K V} (h : WF hashFn m) : m.hashTable.length = m.capacity := h.1

theorem wf_pow {m : HashMap K V} (h : WF hashFn m) : ∃ k, m.capacity = 2 ^ k := h.2.1

theorem wf_count {m : HashMap K V} (h : WF hashFn m) : m.nElements = (toList m).length := by
  rw [h.2.2.1, toList_eq_flatten, List.length_flatten]

theorem wf_route {m : HashMap K V} (h : WF hashFn m) :
    ∀ i < m.capacity, ∀ p ∈ m.hashTable.getD i [], hashIdx hashFn m p.1 = i := h.2.2.2.1

theorem wf_nodup {m : HashMap K V} (h : WF hashFn m) : ((toList m).map Prod.fst).Nodup :=
  h.2.2.2.2

theorem mem_toList_of_mem_bucketOf {m : HashMap K V} {key : K} {p : K × V}
    (h : p ∈ bucketOf hashFn m key) : p ∈ toList m := by
  rw [toList_eq_flatten]
  unfold bucketOf at h
  rcases Nat.lt_or_ge (hashIdx hashFn m key) m.hashTable.length with hlt | hge
  · rw [List.getD_eq_getElem _ _ hlt] at h
    exact List.mem_flatten.mpr ⟨_, List.getElem_mem hlt, h⟩
  · rw [List.getD_eq_default _ _ hge] at h
    simp at h

theorem mem_bucketOf_of_mem_toList {m : HashMap K V} {p : K × V}
    (hWF : WF hashFn m) (h : p ∈ toList m) : p ∈ bucketOf hashFn m p.1 := by
  rw [toList_eq_flatten] at h
  obtain ⟨b, hb, hpb⟩ := List.mem_flatten.mp h
  obtain ⟨i, hi, hbi⟩ := List.mem_iff_getElem.mp hb
  have hgetD : m.hashTable.getD i [] = b := by
    rw [List.getD_eq_getElem _ _ hi, hbi]
  have hroute := wf_route hashFn hWF i (by rw [← wf_length hashFn hWF]; exact hi) p
    (by rw [hgetD]; exact hpb)
  unfold bucketOf
  rw [hroute, hgetD]
  exact hpb

theorem containsKey_eq_keys_mem {m : HashMap K V} (hWF : WF hashFn m) (key : K) :
    containsKey hashFn m key = true ↔ key ∈ (toList m).map Prod.fst := by
  unfold containsKey getPairByKey
  rw [findWithIdx_isSome]
  constructor
  · rintro ⟨p, hp, hp1⟩
    have hmem : p ∈ toList m := mem_toList_of_mem_bucketOf hashFn hp
    exact hp1 ▸ List.mem_map_of_mem Prod.fst hmem
  · intro hk
    obtain ⟨p, hp, hp1⟩ := List.mem_map.mp hk
    have hb := mem_bucketOf_of_mem_toList hashFn hWF hp
    exact ⟨p, by rwa [hp1] at hb, hp1⟩

theorem containsKey_false_iff {m : HashMap K V} (hWF : WF hashFn m) (key : K) :
    containsKey hashFn m key = false ↔ key ∉ (toList m).map Prod.fst := by
  rw [← containsKey_eq_keys_mem hashFn hWF key]
  cases containsKey hashFn m key <;> simp

theorem bucket_nodup {m : HashMap K V} (hWF : WF hashFn m) (key : K) :
    ((bucketOf hashFn m key).map Prod.fst).Nodup := by
  unfold bucketOf
  rcases Nat.lt_or_ge (hashIdx hashFn m key) m.hashTable.length with hlt | hge
  · rw [List.getD_eq_getElem _ _ hlt]
    have hsub : List.Sublist (m.hashTable[hashIdx hashFn m key]) m.hashTable.flatten :=
      List.sublist_flatten_of_mem (List.getElem_mem hlt)
    have hnd : (m.hashTable.flatten.map Prod.fst).Nodup := by
      have := wf_nodup hashFn hWF
      rwa [toList_eq_flatten] at this
    exact (hsub.map Prod.fst).nodup hnd
  · rw [List.getD_eq_default _ _ hge]
    simp

theorem atKey_eq_some_iff {m : HashMap K V} (hWF : WF hashFn m) (key : K) (v : V) :
    atKey hashFn m key = some v ↔ (key, v) ∈ toList m := by
  constructor
  · intro h
    unfold atKey at h
    obtain ⟨q, hq, hv⟩ := Option.map_eq_some'.mp h
    obtain ⟨hk, hlt, hget⟩ := findWithIdx_some_getElem key _ q hq
    have hqmem : q.1 ∈ bucketOf hashFn m key := findWithIdx_mem key _ q hq
    have hq1 : q.1 = (key, v) := Prod.ext hk hv
    exact hq1 ▸ mem_toList_of_mem_bucketOf hashFn hqmem
  · intro h
    have hb : (key, v) ∈ bucketOf hashFn m key := mem_bucketOf_of_mem_toList hashFn hWF h
    obtain ⟨i, hi⟩ := findWithIdx_of_mem_nodup key v _ (bucket_nodup hashFn hWF key) hb
    unfold atKey getPairByKey
    rw [hi]
    rfl

theorem atKey_none_iff_not_contains (m : HashMap K V) (key : K) :
    atKey hashFn m key = none ↔ containsKey hashFn m key = false := by
  unfold atKey containsKey
  cases getPairByKey hashFn m key <;> simp

theorem containsKey_eq_isSome_atKey (m : HashMap K V) (key : K) :
    containsKey hashFn m key = (atKey hashFn m key).isSome := by
  unfold atKey containsKey
  cases getPairByKey hashFn m key <;> rfl

theorem toList_modify {m : HashMap K V} (i : Nat) (f : Bucket K V → Bucket K V)
    (hi : i < m.hashTable.length) :
    ∃ A C, toList m = A ++ m.hashTable[i] ++ C ∧
      ∀ n : Nat, toList (⟨n, m.capacity, modifyIdx m.hashTable i f⟩ : HashMap K V) =
        A ++ f (m.hashTable[i]) ++ C := by
  refine ⟨(m.hashTable.take i).flatten, (m.hashTable.drop (i + 1)).flatten, ?_, ?_⟩
  · conv_lhs => rw [toList_eq_flatten, self_eq_take_append_drop m.hashTable i hi]
    rw [List.flatten_append, List.flatten_append]
    simp
  · intro n
    rw [toList_eq_flatten]
    show (modifyIdx m.hashTable i f).flatten = _
    rw [modifyIdx_eq_append _ _ _ hi, List.flatten_append, List.flatten_append]
    simp

theorem getD_replicate_bucket (c i : Nat) :
    (List.replicate c ([] : Bucket K V)).getD i [] = [] := by
  rcases Nat.lt_or_ge i c with h | h
  · rw [List.getD_eq_getElem _ _ (by simpa using h)]
    simp
  · rw [List.getD_eq_default]
    simpa using h

theorem toList_mkRaw (c : Nat) : toList (mkRaw c : HashMap K V) = [] := by
  rw [toList_eq_flatten]
  show (List.replicate c ([] : Bucket K V)).flatten = []
  induction c with
  | zero => rfl
  | succ n ih => simpa [List.replicate_succ]

theorem mkRaw_WF (c : Nat) (h : ∃ k, c = 2 ^ k) : WF hashFn (mkRaw c : HashMap K V) := by
  refine ⟨by simp [mkRaw], h, ?_, ?_, ?_⟩
  · show (0 : Nat) = ((List.replicate c ([] : Bucket K V)).map List.length).sum
    simp
  · intro i hi p hp
    rw [show (mkRaw c : HashMap K V).hashTable = List.replicate c [] from rfl,
      getD_replicate_bucket] at hp
    simp at hp
  · rw [toList_mkRaw]
    simp

theorem containsKey_mkRaw (c : Nat) (key : K) :
    containsKey hashFn (mkRaw c : HashMap K V) key = false := by
  unfold containsKey getPairByKey bucketOf
  rw [show (mkRaw c : HashMap K V).hashTable = List.replicate c [] from rfl,
    getD_replicate_bucket]
  rfl

theorem atKey_mkRaw (c : Nat) (key : K) :
    atKey hashFn (mkRaw c : HashMap K V) key = none := by
  rw [atKey_none_iff_not_contains]
  exact containsKey_mkRaw hashFn c key

/-! ### Specifications of the mutation primitives -/

@[simp] theorem pushEntry_nElements (m : HashMap K V) (key : K) (value : V) :
    (pushEntry hashFn m key value).nElements = m.nElements + 1 := rfl

@[simp] theorem pushEntry_capacity (m : HashMap K V) (key : K) (value : V) :
    (pushEntry hashFn m key value).capacity = m.capacity := rfl

@[simp] theorem mkRaw_nElements (c : Nat) : (mkRaw c : HashMap K V).nElements = 0 := rfl

@[simp] theorem mkRaw_capacity (c : Nat) : (mkRaw c : HashMap K V).capacity = c := rfl

theorem pushEntry_spec {m : HashMap K V} {key : K} (value : V) (hWF : WF hashFn m)
    (hmiss : containsKey hashFn m key = false) :
    WF hashFn (pushEntry hashFn m key value) ∧
    List.Perm (toList (pushEntry hashFn m key value)) (toList m ++ [(key, value)]) := by
  have hpow := wf_pow hashFn hWF
  have hlt : hashIdx hashFn m key < m.hashTable.length := by
    rw [wf_length hashFn hWF]
    exact hashIdx_lt hashFn m key hpow
  obtain ⟨A, C, hold, hnew⟩ :=
    toList_modify (hashIdx hashFn m key) (fun b => b ++ [(key, value)]) hlt
  have htl : toList (pushEntry hashFn m key value) =
      A ++ (m.hashTable[hashIdx hashFn m key] ++ [(key, value)]) ++ C := hnew _
  have hperm : List.Perm (toList (pushEntry hashFn m key value)) (toList m ++ [(key, value)]) := by
    rw [htl, hold]
    have h1 : A ++ (m.hashTable[hashIdx hashFn m key] ++ [(key, value)]) ++ C =
        (A ++ m.hashTable[hashIdx hashFn m key]) ++ ([(key, value)] ++ C) := by
      simp [List.append_assoc]
    have h2 : (A ++ m.hashTable[hashIdx hashFn m key] ++ C) ++ [(key, value)] =
        (A ++ m.hashTable[hashIdx hashFn m key]) ++ (C ++ [(key, value)]) := by
      simp [List.append_assoc]
    rw [h1, h2]
    exact List.perm_append_comm.append_left _
  refine ⟨⟨?_, hpow, ?_, ?_, ?_⟩, hperm⟩
  · show (modifyIdx m.hashTable (hashIdx hashFn m key) _).length = m.capacity
    rw [modifyIdx_length, wf_length hashFn hWF]
  · show m.nElements + 1 =
      ((pushEntry hashFn m key value).hashTable.map List.length).sum
    have h3 : ((pushEntry hashFn m key value).hashTable.map List.length).sum
        = (toList (pushEntry hashFn m key value)).length := by
      rw [toList_eq_flatten, List.length_flatten]
    rw [h3, hperm.length_eq, List.length_append, ← wf_count hashFn hWF]
    rfl
  · intro i hi p hp
    have hp2 : p ∈ (modifyIdx m.hashTable (hashIdx hashFn m key)
        (fun b => b ++ [(key, value)])).getD i [] := hp
    by_cases hcase : i = hashIdx hashFn m key
    · subst hcase
      rw [getD_modifyIdx_self _ _ _ _ hlt] at hp2
      rcases List.mem_append.mp hp2 with hmem | hmem
    -- note: the capacity (hence hashIdx) of the pushed map agrees with m definitionally
      · exact wf_route hashFn hWF _ hi p hmem
      · have : p = (key, value) := by simpa using hmem
        subst this
        rfl
    · rw [getD_modifyIdx_ne _ _ _ _ _ hcase] at hp2
      exact wf_route hashFn hWF i hi p hp2
  · have hkeys : List.Perm ((toList (pushEntry hashFn m key value)).map Prod.fst)
        (key :: (toList m).map Prod.fst) := by
      refine (hperm.map Prod.fst).trans ?_
      rw [List.map_append]
      exact List.perm_append_comm.trans (by simp)
    rw [hkeys.nodup_iff]
    exact List.nodup_cons.mpr
      ⟨(containsKey_false_iff hashFn hWF key).mp hmiss, wf_nodup hashFn hWF⟩

theorem insertF_eq_of_contains (f : Nat) (m : HashMap K V) (key : K) (value : V)
    (h : containsKey hashFn m key = true) : insertF hashFn f m key value = (m, false) := by
  unfold insertF insertWith
  simp [h]

theorem insertF_eq_push (f : Nat) (m : HashMap K V) (key : K) (value : V)
    (hmiss : containsKey hashFn m key = false)
    (hnt : ¬ 3 * m.capacity < 4 * (m.nElements + 1)) :
    insertF hashFn f m key value = (pushEntry hashFn m key value, true) := by
  unfold insertF insertWith
  simp only [hmiss, Bool.false_eq_true, if_false]
  rw [if_neg (by simpa using hnt)]

theorem insertF_eq_resize (f : Nat) (m : HashMap K V) (key : K) (value : V)
    (hmiss : containsKey hashFn m key = false)
    (ht : 3 * m.capacity < 4 * (m.nElements + 1)) :
    insertF hashFn f m key value =
      (resizeF hashFn f (pushEntry hashFn m key value) (m.capacity * 2), true) := by
  unfold insertF insertWith
  simp only [hmiss, Bool.false_eq_true, if_false]
  rw [if_pos (by simpa using ht)]
  rfl

theorem resizeF_succ_eq (f : Nat) (m : HashMap K V) (newSize : Nat)
    (h : m.nElements ≤ newSize ∧ MIN_CAPACITY ≤ newSize) :
    resizeF hashFn (f + 1) m newSize =
      (toList m).foldl (fun acc p => (insertF hashFn f acc p.1 p.2).1) (mkRaw newSize) := by
  rw [resizeF]
  rw [if_pos h]
  rfl

theorem resizeF_succ_eq_of_not (f : Nat) (m : HashMap K V) (newSize : Nat)
    (h : ¬ (m.nElements ≤ newSize ∧ MIN_CAPACITY ≤ newSize)) :
    resizeF hashFn (f + 1) m newSize = m := by
  rw [resizeF]
  simp only [if_neg h]

theorem foldIns_spec (f : Nat) (l : List (K × V)) (acc : HashMap K V)
    (hWF : WF hashFn acc)
    (hnd : (l.map Prod.fst).Nodup)
    (hdisj : ∀ k ∈ l.map Prod.fst, k ∉ (toList acc).map Prod.fst)
    (hbud : 4 * (acc.nElements + l.length) ≤ 3 * acc.capacity) :
    WF hashFn (l.foldl (fun a p => (insertF hashFn f a p.1 p.2).1) acc) ∧
    (l.foldl (fun a p => (insertF hashFn f a p.1 p.2).1) acc).capacity = acc.capacity ∧
    (l.foldl (fun a p => (insertF hashFn f a p.1 p.2).1) acc).nElements
      = acc.nElements + l.length ∧
    List.Perm (toList (l.foldl (fun a p => (insertF hashFn f a p.1 p.2).1) acc))
      (toList acc ++ l) := by
  induction l generalizing acc with
  | nil =>
    exact ⟨hWF, rfl, rfl, by simp⟩
  | cons p rest ih =>
    have hp_fresh : containsKey hashFn acc p.1 = false := by
      rw [containsKey_false_iff hashFn hWF]
      exact hdisj p.1 (by simp)
    have hnt : ¬ 3 * acc.capacity < 4 * (acc.nElements + 1) := by
      simp only [List.length_cons] at hbud
      omega
    have hstep := insertF_eq_push hashFn f acc p.1 p.2 hp_fresh hnt
    have hpush := pushEntry_spec hashFn p.2 hWF hp_fresh
    have hfold : (p :: rest).foldl (fun a q => (insertF hashFn f a q.1 q.2).1) acc
        = rest.foldl (fun a q => (insertF hashFn f a q.1 q.2).1)
            (pushEntry hashFn acc p.1 p.2) := by
      simp only [List.foldl_cons, hstep]
    rw [List.map_cons, List.nodup_cons] at hnd
    have hmemRest : ∀ k ∈ rest.map Prod.fst,
        k ∉ (toList (pushEntry hashFn acc p.1 p.2)).map Prod.fst := by
      intro k hk hmem
      have hiff := (hpush.2.map Prod.fst).mem_iff.mp hmem
      rw [List.map_append] at hiff
      rcases List.mem_append.mp hiff with hacc | hsingle
      · exact hdisj k (List.mem_cons_of_mem _ hk) hacc
      · have : k = p.1 := by simpa using hsingle
        exact hnd.1 (this ▸ hk)
    have hbud2 : 4 * ((pushEntry hashFn acc p.1 p.2).nElements + rest.length)
        ≤ 3 * (pushEntry hashFn acc p.1 p.2).capacity := by
      simp only [pushEntry_nElements, pushEntry_capacity]
      simp only [List.length_cons] at hbud
      omega
    obtain ⟨hWF2, hcap2, hn2, hperm2⟩ := ih (pushEntry hashFn acc p.1 p.2) hpush.1
      hnd.2 hmemRest hbud2
    rw [hfold]
    refine ⟨hWF2, by rw [hcap2]; rfl, by rw [hn2]; simp; omega, ?_⟩
    refine hperm2.trans ?_
    refine (hpush.2.append_right rest).trans ?_
    simp [List.append_assoc]

theorem resizeF_spec (f : Nat) (m : HashMap K V) (newSize : Nat)
    (hWF : WF hashFn m) (hpow : ∃ j, newSize = 2 ^ j)
    (hle : m.nElements ≤ newSize) (hbud : 4 * m.nElements ≤ 3 * newSize) :
    WF hashFn (resizeF hashFn (f + 1) m newSize) ∧
    (resizeF hashFn (f + 1) m newSize).capacity = newSize ∧
    (resizeF hashFn (f + 1) m newSize).nElements = m.nElements ∧
    List.Perm (toList (resizeF hashFn (f + 1) m newSize)) (toList m) := by
  have hmin : MIN_CAPACITY ≤ newSize := by
    obtain ⟨j, hj⟩ := hpow
    have := Nat.pos_pow_of_pos j (show 0 < 2 by omega)
    unfold MIN_CAPACITY
    omega
  rw [resizeF_succ_eq hashFn f m newSize ⟨hle, hmin⟩]
  have hlen : (toList m).length = m.nElements := (wf_count hashFn hWF).symm
  obtain ⟨hWF2, hcap2, hn2, hperm2⟩ := foldIns_spec hashFn f (toList m) (mkRaw newSize)
    (mkRaw_WF hashFn newSize hpow) (wf_nodup hashFn hWF)
    (by intro k hk hmem; rw [toList_mkRaw] at hmem; simp at hmem)
    (by simp only [mkRaw_nElements, mkRaw_capacity, Nat.zero_add]; omega)
  refine ⟨hWF2, by rw [hcap2]; rfl, by rw [hn2]; simp [hlen], ?_⟩
  refine hperm2.trans ?_
  rw [toList_mkRaw]
  simp

@[simp] theorem mk_nElements (a b : Nat) (t : List (Bucket K V)) :
    (⟨a, b, t⟩ : HashMap K V).nElements = a := rfl

@[simp] theorem mk_capacity (a b : Nat) (t : List (Bucket K V)) :
    (⟨a, b, t⟩ : HashMap K V).capacity = b := rfl

theorem insert_eq_of_contains (m : HashMap K V) (key : K) (value : V)
    (h : containsKey hashFn m key = true) : insert hashFn m key value = (m, false) :=
  insertF_eq_of_contains hashFn 2 m key value h

theorem insert_spec (m : HashMap K V) (key : K) (value : V)
    (hWF : WF hashFn m) (hInv : LoadInv m) (hmiss : containsKey hashFn m key = false) :
    (insert hashFn m key value).2 = true ∧
    WF hashFn (insert hashFn m key value).1 ∧
    LoadInv (insert hashFn m key value).1 ∧
    (insert hashFn m key value).1.nElements = m.nElements + 1 ∧
    List.Perm (toList (insert hashFn m key value).1) (toList m ++ [(key, value)]) ∧
    (insert hashFn m key value).1.capacity =
      (if 3 * m.capacity < 4 * (m.nElements + 1) then m.capacity * 2 else m.capacity) := by
  have hpush := pushEntry_spec hashFn value hWF hmiss
  have hcap_pos : 0 < m.capacity := capacity_pos (wf_pow hashFn hWF)
  unfold LoadInv at hInv
  by_cases htrig : 3 * m.capacity < 4 * (m.nElements + 1)
  case neg =>
    have heq : insert hashFn m key value = (pushEntry hashFn m key value, true) :=
      insertF_eq_push hashFn 2 m key value hmiss htrig
    rw [heq, if_neg htrig]
    refine ⟨rfl, hpush.1, ?_, rfl, hpush.2, rfl⟩
    show 4 * (m.nElements + 1) ≤ 3 * m.capacity
    omega
  case pos =>
    have heq : insert hashFn m key value =
        (resizeF hashFn 2 (pushEntry hashFn m key value) (m.capacity * 2), true) :=
      insertF_eq_resize hashFn 2 m key value hmiss htrig
    obtain ⟨j, hj⟩ := wf_pow hashFn hWF
    have hpow2 : ∃ i, m.capacity * 2 = 2 ^ i := ⟨j + 1, by rw [hj, pow_succ]⟩
    obtain ⟨hWF2, hcap2, hn2, hperm2⟩ :=
      resizeF_spec hashFn 1 (pushEntry hashFn m key value) (m.capacity * 2)
        hpush.1 hpow2
        (by simp only [pushEntry_nElements, pushEntry_capacity]; omega)
        (by simp only [pushEntry_nElements, pushEntry_capacity]; omega)
    rw [heq, if_pos htrig]
    refine ⟨rfl, hWF2, ?_, by rw [hn2]; rfl, hperm2.trans hpush.2, hcap2⟩
    show 4 * (resizeF hashFn 2 (pushEntry hashFn m key value) (m.capacity * 2)).nElements
      ≤ 3 * (resizeF hashFn 2 (pushEntry hashFn m key value) (m.capacity * 2)).capacity
    rw [hn2, hcap2]
    simp only [pushEntry_nElements]
    omega

theorem erase_eq_of_not_contains (m : HashMap K V) (key : K)
    (h : containsKey hashFn m key = false) : erase hashFn m key = (m, false) := by
  unfold erase
  have hnone : getPairByKey hashFn m key = none := by
    unfold containsKey at h
    cases hx : getPairByKey hashFn m key
    · rfl
    · rw [hx] at h
      simp at h
  rw [hnone]

theorem erase_spec (m : HashMap K V) (key : K)
    (hWF : WF hashFn m) (hInv : LoadInv m) (hit : containsKey hashFn m key = true) :
    (erase hashFn m key).2 = true ∧
    WF hashFn (erase hashFn m key).1 ∧
    LoadInv (erase hashFn m key).1 ∧
    (erase hashFn m key).1.nElements = m.nElements - 1 ∧
    containsKey hashFn (erase hashFn m key).1 key = false ∧
    (∃ v, atKey hashFn m key = some v ∧
      List.Perm (toList m) ((key, v) :: toList (erase hashFn m key).1)) ∧
    (erase hashFn m key).1.capacity =
      (if 4 * (m.nElements - 1) < m.capacity ∧ 2 ≤ m.capacity then m.capacity / 2
       else m.capacity) := by
  unfold LoadInv at hInv
  obtain ⟨q, hq⟩ : ∃ q, getPairByKey hashFn m key = some q := by
    unfold containsKey at hit
    cases hx : getPairByKey hashFn m key
    · rw [hx] at hit
      simp at hit
    · exact ⟨_, rfl⟩
  obtain ⟨hqk, hqlt, hqget⟩ := findWithIdx_some_getElem key _ q hq
  have hpow := wf_pow hashFn hWF
  have hcap_pos : 0 < m.capacity := capacity_pos hpow
  have hlt : hashIdx hashFn m key < m.hashTable.length := by
    rw [wf_length hashFn hWF]
    exact hashIdx_lt hashFn m key hpow
  have hbeq : bucketOf hashFn m key = m.hashTable[hashIdx hashFn m key] :=
    List.getD_eq_getElem _ _ hlt
  obtain ⟨A, C, hold, hnew⟩ :=
    toList_modify (hashIdx hashFn m key) (fun b => b.eraseIdx q.2) hlt
  set m1 : HashMap K V := ⟨m.nElements - 1, m.capacity,
      modifyIdx m.hashTable (hashIdx hashFn m key) (fun b => b.eraseIdx q.2)⟩ with hm1def
  have hm1tl : toList m1 = A ++ (bucketOf hashFn m key).eraseIdx q.2 ++ C := by
    rw [hbeq]
    exact hnew _
  have hold2 : toList m = A ++ bucketOf hashFn m key ++ C := by
    rw [hbeq]
    exact hold
  have hsplit : bucketOf hashFn m key =
      (bucketOf hashFn m key).take q.2 ++ [q.1]
        ++ (bucketOf hashFn m key).drop (q.2 + 1) := by
    rw [← hqget]
    exact self_eq_take_append_drop _ q.2 hqlt
  have hbperm : List.Perm (bucketOf hashFn m key)
      (q.1 :: (bucketOf hashFn m key).eraseIdx q.2) := by
    conv_lhs => rw [hsplit]
    rw [List.eraseIdx_eq_take_drop_succ]
    have hmid := @List.perm_middle _ q.1 ((bucketOf hashFn m key).take q.2)
      ((bucketOf hashFn m key).drop (q.2 + 1))
    simpa using hmid
  have hperm1 : List.Perm (toList m) (q.1 :: toList m1) := by
    rw [hold2, hm1tl]
    refine ((hbperm.append_left A).append_right C).trans ?_
    have h1 : (A ++ q.1 :: (bucketOf hashFn m key).eraseIdx q.2) ++ C
        = A ++ q.1 :: ((bucketOf hashFn m key).eraseIdx q.2 ++ C) := by
      simp
    rw [h1]
    refine List.perm_middle.trans ?_
    simp [List.append_assoc]
  have hn1 : m.nElements = (toList m1).length + 1 := by
    rw [wf_count hashFn hWF, hperm1.length_eq, List.length_cons]
  have hWF1 : WF hashFn m1 := by
    refine ⟨?_, hpow, ?_, ?_, ?_⟩
    · show (modifyIdx m.hashTable _ _).length = m.capacity
      rw [modifyIdx_length, wf_length hashFn hWF]
    · show m.nElements - 1 = (m1.hashTable.map List.length).sum
      have h2 : (m1.hashTable.map List.length).sum = (toList m1).length := by
        rw [toList_eq_flatten, List.length_flatten]
      omega
    · intro i hi p hp
      by_cases hcase : i = hashIdx hashFn m key
      · subst hcase
        have hp2 : p ∈ (m.hashTable.getD (hashIdx hashFn m key) []).eraseIdx q.2 := by
          have hx := hp
          rw [show m1.hashTable = modifyIdx m.hashTable (hashIdx hashFn m key)
            (fun b => b.eraseIdx q.2) from rfl, getD_modifyIdx_self _ _ _ _ hlt] at hx
          exact hx
        have hp3 : p ∈ m.hashTable.getD (hashIdx hashFn m key) [] :=
          (List.eraseIdx_sublist _ q.2).subset hp2
        exact wf_route hashFn hWF _ hi p hp3
      · have hp2 : p ∈ m.hashTable.getD i [] := by
          have hx := hp
          rw [show m1.hashTable = modifyIdx m.hashTable (hashIdx hashFn m key)
            (fun b => b.eraseIdx q.2) from rfl, getD_modifyIdx_ne _ _ _ _ _ hcase] at hx
          exact hx
        exact wf_route hashFn hWF i hi p hp2
    · have hkperm : List.Perm ((toList m).map Prod.fst)
          (q.1.1 :: (toList m1).map Prod.fst) := by
        have := hperm1.map Prod.fst
        simpa using this
      have hnd := wf_nodup hashFn hWF
      rw [hkperm.nodup_iff] at hnd
      exact (List.nodup_cons.mp hnd).2
  have hkey_notin : key ∉ (toList m1).map Prod.fst := by
    have hkperm : List.Perm ((toList m).map Prod.fst)
        (q.1.1 :: (toList m1).map Prod.fst) := by
      have := hperm1.map Prod.fst
      simpa using this
    have hnd := wf_nodup hashFn hWF
    rw [hkperm.nodup_iff] at hnd
    exact hqk ▸ (List.nodup_cons.mp hnd).1
  have hval : atKey hashFn m key = some q.1.2 := by
    unfold atKey
    rw [hq]
    rfl
  have hq1eq : q.1 = (key, q.1.2) := Prod.ext hqk rfl
  -- the erase call reduces to a branch on the load factor of m1
  have herase : erase hashFn m key =
      (if 4 * m1.nElements < m1.capacity
        then (resizeF hashFn 2 m1 (m1.capacity / 2), true) else (m1, true)) := by
    unfold erase
    rw [hq]
  by_cases htrig : 4 * (m.nElements - 1) < m.capacity
  case neg =>
    have herase2 : erase hashFn m key = (m1, true) := by
      rw [herase, if_neg (by simpa using htrig)]
    rw [herase2]
    refine ⟨rfl, hWF1, ?_, rfl, ?_, ⟨q.1.2, hval, ?_⟩, ?_⟩
    · show 4 * (m.nElements - 1) ≤ 3 * m.capacity
      omega
    · exact (containsKey_false_iff hashFn hWF1 key).mpr hkey_notin
    · exact hq1eq ▸ hperm1
    · rw [if_neg (fun hcon => htrig (And.left hcon))]
  case pos =>
    by_cases hc2 : 2 ≤ m.capacity
    · -- genuine shrink to capacity / 2
      obtain ⟨j, hj⟩ := hpow
      have hj1 : 1 ≤ j := by
        rcases Nat.eq_zero_or_pos j with h0 | h1
        · rw [h0] at hj
          omega
        · exact h1
      have hhalf : m.capacity / 2 = 2 ^ (j - 1) := by
        rcases Nat.exists_eq_add_of_le hj1 with ⟨i, hi⟩
        subst hi
        rw [hj]
        rw [Nat.add_comm, pow_succ]
        simp
      have heven : m.capacity = 2 * (m.capacity / 2) := by
        rw [hhalf, hj]
        rcases Nat.exists_eq_add_of_le hj1 with ⟨i, hi⟩
        subst hi
        rw [Nat.add_comm, pow_succ]
        ring_nf
        simp [Nat.mul_comm]
      obtain ⟨hWF2, hcap2, hn2, hperm2⟩ := resizeF_spec hashFn 1 m1 (m.capacity / 2)
        hWF1 ⟨j - 1, hhalf⟩ (by simp only [hm1def, mk_nElements]; omega)
        (by simp only [hm1def, mk_nElements]; omega)
      have herase2 : erase hashFn m key = (resizeF hashFn 2 m1 (m.capacity / 2), true) := by
        rw [herase, if_pos (by simpa using htrig)]
      rw [herase2]
      refine ⟨rfl, hWF2, ?_, ?_, ?_, ⟨q.1.2, hval, ?_⟩, ?_⟩
      · show 4 * (resizeF hashFn 2 m1 (m.capacity / 2)).nElements
          ≤ 3 * (resizeF hashFn 2 m1 (m.capacity / 2)).capacity
        rw [hn2, hcap2]
        simp only [hm1def, mk_nElements]
        omega
      · rw [hn2]
      · rw [containsKey_false_iff hashFn hWF2]
        intro hmem
        exact hkey_notin ((hperm2.map Prod.fst).mem_iff.mp hmem)
      · refine (hq1eq ▸ hperm1).trans ?_
        exact (hperm2.symm).cons _
      · rw [hcap2, if_pos ⟨htrig, hc2⟩]
    · -- capacity 1: the guard newSize >= MIN_CAPACITY fails, no shrink
      have hc1 : m.capacity = 1 := by omega
      have hguard : ¬ (m1.nElements ≤ m1.capacity / 2 ∧ MIN_CAPACITY ≤ m1.capacity / 2) := by
        simp only [hm1def, mk_nElements, mk_capacity, hc1]
        unfold MIN_CAPACITY
        omega
      have herase2 : erase hashFn m key = (m1, true) := by
        rw [herase, if_pos (by simpa using htrig)]
        have : resizeF hashFn 2 m1 (m1.capacity / 2) = m1 :=
          resizeF_succ_eq_of_not hashFn 1 m1 (m1.capacity / 2) hguard
        rw [this]
      rw [herase2]
      refine ⟨rfl, hWF1, ?_, rfl, ?_, ⟨q.1.2, hval, ?_⟩, ?_⟩
      · show 4 * (m.nElements - 1) ≤ 3 * m.capacity
        omega
      · exact (containsKey_false_iff hashFn hWF1 key).mpr hkey_notin
      · exact hq1eq ▸ hperm1
      · rw [if_neg (fun hcon => hc2 (And.right hcon))]

theorem insert_preserves_atKey (m : HashMap K V) (key k2 : K) (value : V)
    (hWF : WF hashFn m) (hInv : LoadInv m) (hne : k2 ≠ key) :
    atKey hashFn (insert hashFn m key value).1 k2 = atKey hashFn m k2 := by
  by_cases hc : containsKey hashFn m key
  · rw [insert_eq_of_contains hashFn m key value hc]
  · obtain ⟨-, hWF2, -, -, hperm, -⟩ := insert_spec hashFn m key value hWF hInv
      (Bool.not_eq_true _ ▸ by simpa using hc)
    cases hat : atKey hashFn m k2 with
    | some v =>
      have hmem : (k2, v) ∈ toList m := (atKey_eq_some_iff hashFn hWF k2 v).mp hat
      have hmem2 : (k2, v) ∈ toList (insert hashFn m key value).1 :=
        hperm.mem_iff.mpr (List.mem_append.mpr (Or.inl hmem))
      exact (atKey_eq_some_iff hashFn hWF2 k2 v).mpr hmem2
    | none =>
      rw [atKey_none_iff_not_contains] at hat ⊢
      rw [containsKey_false_iff hashFn hWF2]
      rw [containsKey_false_iff hashFn hWF] at hat
      intro hmem
      have := (hperm.map Prod.fst).mem_iff.mp hmem
      rw [List.map_append] at this
      rcases List.mem_append.mp this with h1 | h2
      · exact hat h1
      · exact hne (by simpa using h2)

theorem insert_containsKey (m : HashMap K V) (key k2 : K) (value : V)
    (hWF : WF hashFn m) (hInv : LoadInv m) :
    containsKey hashFn (insert hashFn m key value).1 k2
      = (containsKey hashFn m k2 || decide (k2 = key)) := by
  by_cases hc : containsKey hashFn m key
  · rw [insert_eq_of_contains hashFn m key value hc]
    by_cases hne : k2 = key
    · subst hne
      rw [hc]
      simp
    · simp [hne]
  · have hmiss : containsKey hashFn m key = false := by simpa using hc
    obtain ⟨-, hWF2, -, -, hperm, -⟩ := insert_spec hashFn m key value hWF hInv hmiss
    have hkeys : ∀ a, a ∈ (toList (insert hashFn m key value).1).map Prod.fst ↔
        a ∈ (toList m).map Prod.fst ∨ a = key := by
      intro a
      rw [(hperm.map Prod.fst).mem_iff, List.map_append]
      simp
    by_cases hk2 : containsKey hashFn m k2
    · have : k2 ∈ (toList m).map Prod.fst := (containsKey_eq_keys_mem hashFn hWF k2).mp hk2
      have : containsKey hashFn (insert hashFn m key value).1 k2 = true :=
        (containsKey_eq_keys_mem hashFn hWF2 k2).mpr ((hkeys k2).mpr (Or.inl this))
      rw [this, hk2]
      simp
    · have hk2f : containsKey hashFn m k2 = false := by simpa using hk2
      rw [hk2f, Bool.false_or]
      by_cases hne : k2 = key
      · subst hne
        rw [(containsKey_eq_keys_mem hashFn hWF2 k2).mpr ((hkeys k2).mpr (Or.inr rfl))]
        simp
      · have : containsKey hashFn (insert hashFn m key value).1 k2 = false := by
          rw [containsKey_false_iff hashFn hWF2]
          intro hmem
          rcases (hkeys k2).mp hmem with h1 | h2
          · rw [containsKey_false_iff hashFn hWF] at hk2f
            exact hk2f h1
          · exact hne h2
        rw [this]
        simp [hne]

theorem bucketOf_setValueMap (m : HashMap K V) (key k2 : K) (value : V)
    (hWF : WF hashFn m) :
    bucketOf hashFn (setValueMap hashFn m key value) k2 =
      (if hashIdx hashFn m k2 = hashIdx hashFn m key
        then setValueInBucket key value (bucketOf hashFn m k2)
        else bucketOf hashFn m k2) := by
  have hlt : hashIdx hashFn m key < m.hashTable.length := by
    rw [wf_length hashFn hWF]
    exact hashIdx_lt hashFn m key (wf_pow hashFn hWF)
  show (modifyIdx m.hashTable (hashIdx hashFn m key)
      (setValueInBucket key value)).getD (hashIdx hashFn m k2) [] = _
  by_cases hc : hashIdx hashFn m k2 = hashIdx hashFn m key
  · rw [if_pos hc]
    show (modifyIdx m.hashTable (hashIdx hashFn m key)
        (setValueInBucket key value)).getD (hashIdx hashFn m k2) []
      = setValueInBucket key value (m.hashTable.getD (hashIdx hashFn m k2) [])
    rw [hc, getD_modifyIdx_self _ _ _ _ hlt]
  · rw [if_neg hc, getD_modifyIdx_ne _ _ _ _ _ hc]
    rfl

theorem setValue_step (m : HashMap K V) (key : K) (value : V)
    (hWF : WF hashFn m) (hmem : containsKey hashFn m key = true) :
    WF hashFn (setValueMap hashFn m key value) ∧
    (setValueMap hashFn m key value).nElements = m.nElements ∧
    (setValueMap hashFn m key value).capacity = m.capacity ∧
    atKey hashFn (setValueMap hashFn m key value) key = some value ∧
    (∀ k2, k2 ≠ key → atKey hashFn (setValueMap hashFn m key value) k2 = atKey hashFn m k2) ∧
    (∀ k2, containsKey hashFn (setValueMap hashFn m key value) k2
      = containsKey hashFn m k2) := by
  have hpow := wf_pow hashFn hWF
  have hlt : hashIdx hashFn m key < m.hashTable.length := by
    rw [wf_length hashFn hWF]
    exact hashIdx_lt hashFn m key hpow
  have hbeq : bucketOf hashFn m key = m.hashTable[hashIdx hashFn m key] :=
    List.getD_eq_getElem _ _ hlt
  have hkeymem : key ∈ (bucketOf hashFn m key).map Prod.fst := by
    unfold containsKey getPairByKey at hmem
    rw [findWithIdx_isSome] at hmem
    obtain ⟨p, hp, hp1⟩ := hmem
    have hx := List.mem_map_of_mem Prod.fst hp
    rwa [hp1] at hx
  have hatnew : atKey hashFn (setValueMap hashFn m key value) key = some value := by
    unfold atKey getPairByKey
    rw [bucketOf_setValueMap hashFn m key key value hWF, if_pos rfl]
    obtain ⟨i, hi⟩ := findWithIdx_setValue_self key value _ hkeymem
    rw [hi]
    rfl
  have hat2 : ∀ k2, k2 ≠ key →
      atKey hashFn (setValueMap hashFn m key value) k2 = atKey hashFn m k2 := by
    intro k2 hne
    unfold atKey getPairByKey
    rw [bucketOf_setValueMap hashFn m key k2 value hWF]
    by_cases hc : hashIdx hashFn m k2 = hashIdx hashFn m key
    · rw [if_pos hc, findWithIdx_setValue_ne key k2 value _ hne]
    · rw [if_neg hc]
  obtain ⟨A, C, hold, hnew⟩ := toList_modify (hashIdx hashFn m key)
    (setValueInBucket key value) hlt
  have htlnew : toList (setValueMap hashFn m key value)
      = A ++ setValueInBucket key value (m.hashTable[hashIdx hashFn m key]) ++ C :=
    hnew m.nElements
  have hkeyseq : (toList (setValueMap hashFn m key value)).map Prod.fst
      = (toList m).map Prod.fst := by
    rw [htlnew, hold]
    rw [List.map_append, List.map_append, List.map_append, List.map_append,
      setValue_map_fst]
  refine ⟨⟨?_, hpow, ?_, ?_, ?_⟩, rfl, rfl, hatnew, hat2, ?_⟩
  · show (modifyIdx m.hashTable _ _).length = m.capacity
    rw [modifyIdx_length, wf_length hashFn hWF]
  · show m.nElements = ((setValueMap hashFn m key value).hashTable.map List.length).sum
    have h2 : ((setValueMap hashFn m key value).hashTable.map List.length).sum
        = (toList (setValueMap hashFn m key value)).length := by
      rw [toList_eq_flatten, List.length_flatten]
    rw [h2]
    have h3 := congrArg List.length hkeyseq
    simp only [List.length_map] at h3
    rw [h3, ← wf_count hashFn hWF]
  · intro i hi p hp
    by_cases hc : i = hashIdx hashFn m key
    · subst hc
      have hp2 : p ∈ setValueInBucket key value (m.hashTable.getD (hashIdx hashFn m key) []) := by
        have hx := hp
        rw [show (setValueMap hashFn m key value).hashTable
          = modifyIdx m.hashTable (hashIdx hashFn m key) (setValueInBucket key value) from rfl,
          getD_modifyIdx_self _ _ _ _ hlt] at hx
        exact hx
      have hp3 : p.1 ∈ (m.hashTable.getD (hashIdx hashFn m key) []).map Prod.fst :=
        setValue_mem_fst key value _ p hp2
      obtain ⟨p2, hp2mem, hp2eq⟩ := List.mem_map.mp hp3
      have := wf_route hashFn hWF _ hi p2 hp2mem
      rw [hp2eq] at this
      exact this
    · have hp2 : p ∈ m.hashTable.getD i [] := by
        have hx := hp
        rw [show (setValueMap hashFn m key value).hashTable
          = modifyIdx m.hashTable (hashIdx hashFn m key) (setValueInBucket key value) from rfl,
          getD_modifyIdx_ne _ _ _ _ _ hc] at hx
        exact hx
      exact wf_route hashFn hWF i hi p hp2
  · rw [show ((toList (setValueMap hashFn m key value)).map Prod.fst).Nodup
      = ((toList m).map Prod.fst).Nodup from by rw [hkeyseq]]
    exact wf_nodup hashFn hWF
  · intro k2
    by_cases hne : k2 = key
    · subst hne
      rw [hmem, containsKey_eq_isSome_atKey, hatnew]
      rfl
    · rw [containsKey_eq_isSome_atKey, containsKey_eq_isSome_atKey, hat2 k2 hne]

theorem bracketAssign_spec [Inhabited V] (m : HashMap K V) (key : K) (value : V)
    (hWF : WF hashFn m) (hInv : LoadInv m) :
    WF hashFn (bracketAssign hashFn m key value) ∧
    LoadInv (bracketAssign hashFn m key value) ∧
    atKey hashFn (bracketAssign hashFn m key value) key = some value ∧
    (∀ k2, k2 ≠ key → atKey hashFn (bracketAssign hashFn m key value) k2
      = atKey hashFn m k2) ∧
    (∀ k2, containsKey hashFn (bracketAssign hashFn m key value) k2
      = (containsKey hashFn m k2 || decide (k2 = key))) ∧
    (bracketAssign hashFn m key value).nElements
      = (if containsKey hashFn m key then m.nElements else m.nElements + 1) := by
  by_cases hc : containsKey hashFn m key
  · obtain ⟨q, hq⟩ : ∃ q, getPairByKey hashFn m key = some q := by
      unfold containsKey at hc
      cases hx : getPairByKey hashFn m key
      · rw [hx] at hc
        simp at hc
      · exact ⟨_, rfl⟩
    have hba : bracketAssign hashFn m key value = setValueMap hashFn m key value := by
      unfold bracketAssign
      rw [hq]
    obtain ⟨hWF2, hn2, hcap2, hat2, hat3, hcont2⟩ := setValue_step hashFn m key value hWF hc
    rw [hba, if_pos hc]
    refine ⟨hWF2, ?_, hat2, hat3, ?_, hn2⟩
    · show 4 * (setValueMap hashFn m key value).nElements
        ≤ 3 * (setValueMap hashFn m key value).capacity
      rw [hn2, hcap2]
      exact hInv
    · intro k2
      rw [hcont2 k2]
      by_cases hne : k2 = key
      · subst hne
        rw [hc]
        simp
      · simp [hne]
  · have hmiss : containsKey hashFn m key = false := by simpa using hc
    have hnone : getPairByKey hashFn m key = none := by
      unfold containsKey at hmiss
      cases hx : getPairByKey hashFn m key
      · rfl
      · rw [hx] at hmiss
        simp at hmiss
    have hba : bracketAssign hashFn m key value
        = setValueMap hashFn (insert hashFn m key (default : V)).1 key value := by
      unfold bracketAssign
      rw [hnone]
    obtain ⟨-, hWF1, hInv1, hn1, hperm1, -⟩ :=
      insert_spec hashFn m key (default : V) hWF hInv hmiss
    have hc1 : containsKey hashFn (insert hashFn m key (default : V)).1 key = true := by
      rw [insert_containsKey hashFn m key key (default : V) hWF hInv]
      simp
    obtain ⟨hWF2, hn2, hcap2, hat2, hat3, hcont2⟩ :=
      setValue_step hashFn (insert hashFn m key (default : V)).1 key value hWF1 hc1
    rw [hba, if_neg (by simpa using hmiss)]
    refine ⟨hWF2, ?_, hat2, ?_, ?_, ?_⟩
    · show 4 * (setValueMap hashFn (insert hashFn m key (default : V)).1 key value).nElements
        ≤ 3 * (setValueMap hashFn (insert hashFn m key (default : V)).1 key value).capacity
      rw [hn2, hcap2]
      exact hInv1
    · intro k2 hne
      rw [hat3 k2 hne]
      exact insert_preserves_atKey hashFn m key k2 (default : V) hWF hInv hne
    · intro k2
      rw [hcont2 k2]
      exact insert_containsKey hashFn m key k2 (default : V) hWF hInv
    · rw [hn2, hn1]

theorem lastWrite_cons (key : K) (p : K × V) (rest : List (K × V)) :
    lastWrite key (p :: rest) =
      (match lastWrite key rest with
       | some v => some v
       | none => if p.1 = key then some p.2 else none) := rfl

theorem bracketFold_spec [Inhabited V] (l : List (K × V)) (acc : HashMap K V)
    (hWF : WF hashFn acc) (hInv : LoadInv acc) :
    WF hashFn (l.foldl (fun a p => bracketAssign hashFn a p.1 p.2) acc) ∧
    LoadInv (l.foldl (fun a p => bracketAssign hashFn a p.1 p.2) acc) ∧
    (∀ k, atKey hashFn (l.foldl (fun a p => bracketAssign hashFn a p.1 p.2) acc) k
      = (match lastWrite k l with
         | some v => some v
         | none => atKey hashFn acc k)) ∧
    (∀ k, containsKey hashFn (l.foldl (fun a p => bracketAssign hashFn a p.1 p.2) acc) k
      = (containsKey hashFn acc k || decide (k ∈ l.map Prod.fst))) := by
  induction l generalizing acc with
  | nil =>
    exact ⟨hWF, hInv, fun k => rfl, fun k => by simp⟩
  | cons p rest ih =>
    obtain ⟨hWF1, hInv1, hat1, hat1x, hcont1, -⟩ :=
      bracketAssign_spec hashFn acc p.1 p.2 hWF hInv
    obtain ⟨hWF2, hInv2, hat2, hcont2⟩ := ih (bracketAssign hashFn acc p.1 p.2) hWF1 hInv1
    refine ⟨hWF2, hInv2, ?_, ?_⟩
    · intro k
      simp only [List.foldl_cons]
      rw [hat2 k, lastWrite_cons]
      cases hlw : lastWrite k rest with
      | some v => rfl
      | none =>
        by_cases hpk : p.1 = k
        · rw [if_pos hpk]
          subst hpk
          exact hat1
        · rw [if_neg hpk]
          exact hat1x k (fun h => hpk h.symm)
    · intro k
      simp only [List.foldl_cons]
      rw [hcont2 k, hcont1 k]
      simp only [List.map_cons, List.mem_cons]
      by_cases h1 : k = p.1
      · simp [h1]
      · by_cases h2 : k ∈ rest.map Prod.fst
        · simp [h1, h2]
        · simp [h1, h2]

theorem nodup_getElem_not_mem_take {α : Type} (xs : List α) (hnd : xs.Nodup) (i : Nat)
    (hi : i < xs.length) : xs[i] ∉ xs.take i := by
  intro hmem
  obtain ⟨j, hj, hget⟩ := List.mem_iff_getElem.mp hmem
  have hj_lt_i : j < i := by
    rw [List.length_take] at hj
    omega
  have hj_len : j < xs.length := by omega
  have hgt : (xs.take i)[j] = xs[j] := List.getElem_take xs
  rw [hgt] at hget
  have := hnd.getElem_inj_iff.mp hget
  omega

theorem insertSeq_facts (l : List (K × V)) (hnd : (l.map Prod.fst).Nodup)
    (hlen : l.length ≤ 24) :
    ∀ n ≤ l.length,
      WF hashFn ((l.take n).foldl (fun a p => (insert hashFn a p.1 p.2).1)
        (mkDefault : HashMap K V)) ∧
      LoadInv ((l.take n).foldl (fun a p => (insert hashFn a p.1 p.2).1)
        (mkDefault : HashMap K V)) ∧
      ((l.take n).foldl (fun a p => (insert hashFn a p.1 p.2).1)
        (mkDefault : HashMap K V)).nElements = n ∧
      List.Perm (toList ((l.take n).foldl (fun a p => (insert hashFn a p.1 p.2).1)
        (mkDefault : HashMap K V))) (l.take n) ∧
      ((l.take n).foldl (fun a p => (insert hashFn a p.1 p.2).1)
        (mkDefault : HashMap K V)).capacity = (if n ≤ 12 then 16 else 32) := by
  intro n hn
  induction n with
  | zero =>
    refine ⟨mkRaw_WF hashFn 16 ⟨4, by norm_num⟩, ?_, rfl, ?_, rfl⟩
    · show 4 * (0 : Nat) ≤ 3 * 16
      omega
    · rw [List.take_zero, List.foldl_nil]
      rw [show (mkDefault : HashMap K V) = mkRaw 16 from rfl, toList_mkRaw]
  | succ i ih =>
    obtain ⟨hWF, hInv, hsize, hperm, hcap⟩ := ih (by omega)
    have hi_lt : i < l.length := by omega
    have hsplit : l.take (i + 1) = l.take i ++ [l[i]] := by
      rw [List.take_succ, List.getElem?_eq_getElem hi_lt]
      rfl
    have hfresh : containsKey hashFn
        ((l.take i).foldl (fun a p => (insert hashFn a p.1 p.2).1)
          (mkDefault : HashMap K V)) (l[i]).1 = false := by
      rw [containsKey_false_iff hashFn hWF]
      intro hmem
      have h2 := (hperm.map Prod.fst).mem_iff.mp hmem
      rw [List.map_take] at h2
      have hi2 : i < (l.map Prod.fst).length := by simpa using hi_lt
      have h3 : (l.map Prod.fst)[i] ∈ (l.map Prod.fst).take i := by
        have hx : (l.map Prod.fst)[i] = (l[i]).1 := by simp
        rw [hx]
        exact h2
      exact nodup_getElem_not_mem_take _ hnd i hi2 h3
    obtain ⟨-, hWF2, hInv2, hsize2, hperm2, hcap2⟩ :=
      insert_spec hashFn _ (l[i]).1 (l[i]).2 hWF hInv hfresh
    have hfold : (l.take (i + 1)).foldl (fun a p => (insert hashFn a p.1 p.2).1)
          (mkDefault : HashMap K V)
        = (insert hashFn ((l.take i).foldl (fun a p => (insert hashFn a p.1 p.2).1)
            (mkDefault : HashMap K V)) (l[i]).1 (l[i]).2).1 := by
      rw [hsplit, List.foldl_append]
      rfl
    rw [hfold]
    refine ⟨hWF2, hInv2, by rw [hsize2, hsize], ?_, ?_⟩
    · refine hperm2.trans ?_
      rw [hsplit]
      refine List.Perm.append (hperm.symm.symm) ?_
      simp
    · rw [hcap2, hsize, hcap]
      by_cases h1 : i ≤ 11
      · rw [if_pos (by omega : i ≤ 12), if_neg (by omega : ¬ 3 * 16 < 4 * (i + 1)),
          if_pos (by omega : i + 1 ≤ 12)]
      · by_cases h2 : i = 12
        · subst h2
          rw [if_pos (by omega : (12 : Nat) ≤ 12),
            if_pos (by omega : 3 * 16 < 4 * (12 + 1)), if_neg (by omega : ¬ 12 + 1 ≤ 12)]
        · have h13 : 13 ≤ i := by omega
          have h23 : i ≤ 23 := by omega
          rw [if_neg (by omega : ¬ i ≤ 12), if_neg (by omega : ¬ 3 * 32 < 4 * (i + 1)),
            if_neg (by omega : ¬ i + 1 ≤ 12)]

/-! ### Claim theorems -/

/-- C1 (amended): after any mutating call (insert, erase, clear) on a
well-formed table satisfying the load bound, `capacity()` is still a power of
two and the load factor still satisfies `size()/capacity() ≤ 3/4` — the bound
is attained, so the interval is closed on the right; no lower bound is
re-established: insert and clear never shrink the table, and erase halves the
capacity at most once per call, so the load factor may lie below 1/4 away
from the minimum capacity floor. -/
theorem claim_c1_amended (m : HashMap K V) (key : K) (value : V)
    (hWF : WF hashFn m) (hInv : LoadInv m) :
    ((∃ j, (insert hashFn m key value).1.capacity = 2 ^ j) ∧
      LoadInv (insert hashFn m key value).1) ∧
    ((∃ j, (erase hashFn m key).1.capacity = 2 ^ j) ∧
      LoadInv (erase hashFn m key).1) ∧
    ((∃ j, (clear m).capacity = 2 ^ j) ∧ LoadInv (clear m)) := by
  refine ⟨?_, ?_, ?_⟩
  · by_cases hc : containsKey hashFn m key
    · rw [insert_eq_of_contains hashFn m key value hc]
      exact ⟨wf_pow hashFn hWF, hInv⟩
    · obtain ⟨-, hWF2, hInv2, -, -, -⟩ :=
        insert_spec hashFn m key value hWF hInv (by simpa using hc)
      exact ⟨wf_pow hashFn hWF2, hInv2⟩
  · by_cases hc : containsKey hashFn m key
    · obtain ⟨-, hWF2, hInv2, -, -, -, -⟩ := erase_spec hashFn m key hWF hInv hc
      exact ⟨wf_pow hashFn hWF2, hInv2⟩
    · rw [erase_eq_of_not_contains hashFn m key (by simpa using hc)]
      exact ⟨wf_pow hashFn hWF, hInv⟩
  · refine ⟨?_, ?_⟩
    · show ∃ j, m.capacity = 2 ^ j
      exact wf_pow hashFn hWF
    · show 4 * (0 : Nat) ≤ 3 * m.capacity
      omega

/-- C1 counterexample: the claimed invariant `size()/capacity() ∈ [1/4, 3/4)`
(away from the minimum capacity floor) is false of the code right after
mutating calls: (a) one insert into a fresh default table leaves load
1/16 < 1/4 at capacity 16 ≠ floor; (b) twelve distinct inserts leave load
exactly 3/4 — the upper bound is attained, so the half-open interval is
wrong; (c) erasing down to the empty table shrinks 16 → 8 only once, leaving
load 0 < 1/4 at capacity 8 ≠ floor. -/
theorem claim_c1_counterexample :
    ((insert (fun n => n) (mkDefault : HashMap Nat Nat) 0 0).1.capacity = 16 ∧
      4 * (insert (fun n => n) (mkDefault : HashMap Nat Nat) 0 0).1.nElements < 16 ∧
      (16 : Nat) ≠ MIN_CAPACITY) ∧
    ((((List.range 12).map (fun k => (k, k))).foldl
        (fun a p => (insert (fun n => n) a p.1 p.2).1)
        (mkDefault : HashMap Nat Nat)).capacity = 16 ∧
      4 * (((List.range 12).map (fun k => (k, k))).foldl
        (fun a p => (insert (fun n => n) a p.1 p.2).1)
        (mkDefault : HashMap Nat Nat)).nElements = 3 * 16) ∧
    ((erase (fun n => n)
        (insert (fun n => n) (mkDefault : HashMap Nat Nat) 0 0).1 0).1.capacity = 8 ∧
      (erase (fun n => n)
        (insert (fun n => n) (mkDefault : HashMap Nat Nat) 0 0).1 0).1.nElements = 0 ∧
      (8 : Nat) ≠ MIN_CAPACITY) := by
  refine ⟨⟨?_, ?_, ?_⟩, ⟨?_, ?_⟩, ⟨?_, ?_, ?_⟩⟩ <;> decide

/-- C1 witness: the amended invariant at a concrete one-element table. -/
theorem claim_c1_witness :
    ((∃ j, (insert (fun n => n)
        (insert (fun n => n) (mkDefault : HashMap Nat Nat) 3 7).1 5 1).1.capacity = 2 ^ j) ∧
      LoadInv (insert (fun n => n)
        (insert (fun n => n) (mkDefault : HashMap Nat Nat) 3 7).1 5 1).1) ∧
    ((∃ j, (erase (fun n => n)
        (insert (fun n => n) (mkDefault : HashMap Nat Nat) 3 7).1 5).1.capacity = 2 ^ j) ∧
      LoadInv (erase (fun n => n)
        (insert (fun n => n) (mkDefault : HashMap Nat Nat) 3 7).1 5).1) ∧
    ((∃ j, (clear (insert (fun n => n)
        (mkDefault : HashMap Nat Nat) 3 7).1).capacity = 2 ^ j) ∧
      LoadInv (clear (insert (fun n => n) (mkDefault : HashMap Nat Nat) 3 7).1)) :=
  claim_c1_amended (fun n => n) (insert (fun n => n) (mkDefault : HashMap Nat Nat) 3 7).1 5 1
    ⟨rfl, ⟨4, rfl⟩, rfl, by decide, by decide⟩ (by unfold LoadInv; decide)

/-- C2 (amended): the move constructor transfers the bucket array to the
destination (which receives the source's contents, element count and
capacity) and nulls the source's `_hashTable` pointer, so the entries are
reachable only through the destination and destroying the source is safe
(`delete[]` of a null pointer); however the source's `_nElements` and
`_capacity` fields are left untouched, so `size()` on the moved-from object
still reports the pre-move count and it is not observably empty. -/
theorem claim_c2_amended (m : HashMap K V) :
    (moveCtor (toMovable m)).1.hashTable = some m.hashTable ∧
    (moveCtor (toMovable m)).1.nElements = m.nElements ∧
    (moveCtor (toMovable m)).1.capacity = m.capacity ∧
    (moveCtor (toMovable m)).2.hashTable = none ∧
    msize (moveCtor (toMovable m)).2 = m.nElements ∧
    (moveCtor (toMovable m)).2.capacity = m.capacity :=
  ⟨rfl, rfl, rfl, rfl, rfl, rfl⟩

/-- C2 counterexample: after moving from a one-element table the source's
`size()` is still 1 and `empty()` is false — the claim that the moved-from
table has `size() = 0` and is `empty()` is false of the code, which never
resets `_nElements` of the source. -/
theorem claim_c2_counterexample :
    msize (moveCtor (toMovable
      (insert (fun n => n) (mkDefault : HashMap Nat Nat) 3 7).1)).2 = 1 ∧
    mempty (moveCtor (toMovable
      (insert (fun n => n) (mkDefault : HashMap Nat Nat) 3 7).1)).2 = false := by
  exact ⟨by decide, by decide⟩

/-- C3: on a non-empty table, the const access operator applied to an absent
key does not fail with the not-found condition: it returns the value of the
first entry in bucket-traversal order (`cbegin()->second`). -/
theorem claim_c3 (m : HashMap K V) (key : K)
    (hWF : WF hashFn m) (hne : m.nElements ≠ 0)
    (hmiss : containsKey hashFn m key = false) :
    (constGet hashFn m key).isSome = true ∧
    ∃ p, (toList m).head? = some p ∧ constGet hashFn m key = some p.2 := by
  have hnone : getPairByKey hashFn m key = none := by
    unfold containsKey at hmiss
    cases hx : getPairByKey hashFn m key
    · rfl
    · rw [hx] at hmiss
      simp at hmiss
  have hlen : (toList m).length ≠ 0 := by
    rw [← wf_count hashFn hWF]
    exact hne
  obtain ⟨p, hp⟩ : ∃ p, (toList m).head? = some p := by
    cases htl : toList m with
    | nil => rw [htl] at hlen; simp at hlen
    | cons a rest => exact ⟨a, by simp [htl]⟩
  have hcg : constGet hashFn m key = some p.2 := by
    unfold constGet
    rw [hnone, hp]
    rfl
  exact ⟨by rw [hcg]; rfl, p, hp, hcg⟩

/-- C3 witness: the one-element table {3 ↦ 7} and the absent key 5. -/
theorem claim_c3_witness :
    (constGet (fun n => n)
      (insert (fun n => n) (mkDefault : HashMap Nat Nat) 3 7).1 5).isSome = true ∧
    ∃ p, (toList (insert (fun n => n)
        (mkDefault : HashMap Nat Nat) 3 7).1).head? = some p ∧
      constGet (fun n => n)
        (insert (fun n => n) (mkDefault : HashMap Nat Nat) 3 7).1 5 = some p.2 :=
  claim_c3 (fun n => n) (insert (fun n => n) (mkDefault : HashMap Nat Nat) 3 7).1 5
    ⟨rfl, ⟨4, rfl⟩, rfl, by decide, by decide⟩ (by decide) (by decide)

/-- C4: inserting an already-present key (stored value v) with a new value is
a strict no-op returning false: the map is unchanged, so the stored value is
still v and `size()` and `capacity()` are unchanged. -/
theorem claim_c4 (m : HashMap K V) (key : K) (v w : V)
    (hv : atKey hashFn m key = some v) :
    insert hashFn m key w = (m, false) ∧
    atKey hashFn (insert hashFn m key w).1 key = some v ∧
    (insert hashFn m key w).1.nElements = m.nElements ∧
    (insert hashFn m key w).1.capacity = m.capacity := by
  have hc : containsKey hashFn m key = true := by
    rw [containsKey_eq_isSome_atKey, hv]
    rfl
  have heq := insert_eq_of_contains hashFn m key w hc
  rw [heq]
  exact ⟨rfl, hv, rfl, rfl⟩

/-- C4 witness: inserting key 3 (stored value 7) again with value 99. -/
theorem claim_c4_witness :
    insert (fun n => n) (insert (fun n => n)
      (mkDefault : HashMap Nat Nat) 3 7).1 3 99
      = ((insert (fun n => n) (mkDefault : HashMap Nat Nat) 3 7).1, false) ∧
    atKey (fun n => n) (insert (fun n => n) (insert (fun n => n)
      (mkDefault : HashMap Nat Nat) 3 7).1 3 99).1 3 = some 7 ∧
    (insert (fun n => n) (insert (fun n => n)
      (mkDefault : HashMap Nat Nat) 3 7).1 3 99).1.nElements
      = (insert (fun n => n) (mkDefault : HashMap Nat Nat) 3 7).1.nElements ∧
    (insert (fun n => n) (insert (fun n => n)
      (mkDefault : HashMap Nat Nat) 3 7).1 3 99).1.capacity
      = (insert (fun n => n) (mkDefault : HashMap Nat Nat) 3 7).1.capacity :=
  claim_c4 (fun n => n) (insert (fun n => n) (mkDefault : HashMap Nat Nat) 3 7).1 3 7 99
    (by decide)

/-- C5: `at`, `bucketIndex` and `bucketSize` fail with the key-not-found
condition exactly when the key is absent from the table, and return normally
exactly when it is present. -/
theorem claim_c5 (m : HashMap K V) (key : K) :
    (atKey hashFn m key = none ↔ containsKey hashFn m key = false) ∧
    (bucketIndex hashFn m key = none ↔ containsKey hashFn m key = false) ∧
    (bucketSize hashFn m key = none ↔ containsKey hashFn m key = false) ∧
    ((atKey hashFn m key).isSome = containsKey hashFn m key) ∧
    ((bucketIndex hashFn m key).isSome = containsKey hashFn m key) ∧
    ((bucketSize hashFn m key).isSome = containsKey hashFn m key) := by
  refine ⟨atKey_none_iff_not_contains hashFn m key, ?_, ?_,
    (containsKey_eq_isSome_atKey hashFn m key).symm, ?_, ?_⟩
  · unfold bucketIndex
    cases hc : containsKey hashFn m key <;> simp
  · unfold bucketSize bucketIndex
    cases hc : containsKey hashFn m key <;> simp
  · unfold bucketIndex
    cases hc : containsKey hashFn m key <;> simp
  · unfold bucketSize bucketIndex
    cases hc : containsKey hashFn m key <;> simp

/-- C6: erasing a present key returns true and afterwards the key is absent;
erasing an absent key returns false and leaves the table, hence `size()`,
unchanged. -/
theorem claim_c6 (m : HashMap K V) (key : K)
    (hWF : WF hashFn m) (hInv : LoadInv m) :
    (containsKey hashFn m key = true →
      (erase hashFn m key).2 = true ∧
      containsKey hashFn (erase hashFn m key).1 key = false) ∧
    (containsKey hashFn m key = false →
      erase hashFn m key = (m, false) ∧
      (erase hashFn m key).1.nElements = m.nElements) := by
  constructor
  · intro hit
    obtain ⟨h2, -, -, -, hcont, -, -⟩ := erase_spec hashFn m key hWF hInv hit
    exact ⟨h2, hcont⟩
  · intro hmiss
    have heq := erase_eq_of_not_contains hashFn m key hmiss
    rw [heq]
    exact ⟨rfl, rfl⟩

/-- C6 witness: the one-element table {3 ↦ 7}. -/
theorem claim_c6_witness :
    (containsKey (fun n => n)
        (insert (fun n => n) (mkDefault : HashMap Nat Nat) 3 7).1 3 = true →
      (erase (fun n => n)
        (insert (fun n => n) (mkDefault : HashMap Nat Nat) 3 7).1 3).2 = true ∧
      containsKey (fun n => n) (erase (fun n => n)
        (insert (fun n => n) (mkDefault : HashMap Nat Nat) 3 7).1 3).1 3 = false) ∧
    (containsKey (fun n => n)
        (insert (fun n => n) (mkDefault : HashMap Nat Nat) 3 7).1 3 = false →
      erase (fun n => n)
        (insert (fun n => n) (mkDefault : HashMap Nat Nat) 3 7).1 3
        = ((insert (fun n => n) (mkDefault : HashMap Nat Nat) 3 7).1, false) ∧
      (erase (fun n => n)
        (insert (fun n => n) (mkDefault : HashMap Nat Nat) 3 7).1 3).1.nElements
        = (insert (fun n => n) (mkDefault : HashMap Nat Nat) 3 7).1.nElements) :=
  claim_c6 (fun n => n) (insert (fun n => n) (mkDefault : HashMap Nat Nat) 3 7).1 3
    ⟨rfl, ⟨4, rfl⟩, rfl, by decide, by decide⟩ (by unfold LoadInv; decide)

/-- C7: the two-vector constructor fails with the length-mismatch condition
(no table is produced) when the input lengths differ; with equal lengths it
builds a table in which every key maps to the LAST value supplied for it and
whose entry count is the number of distinct keys — in particular
keys = [x, x, y], values = [10, 20, 30] yields a 2-entry table with
at(x) = 20 and at(y) = 30 (see the witness). -/
theorem claim_c7 [Inhabited V] (keys : List K) (values : List V) :
    (keys.length ≠ values.length →
      fromVectors hashFn keys values
        = Except.error "HashMap: the input vectors should be in the same size.") ∧
    (keys.length = values.length →
      ∃ m, fromVectors hashFn keys values = Except.ok m ∧
        (∀ k, atKey hashFn m k = lastWrite k (keys.zip values)) ∧
        (∀ k, containsKey hashFn m k = decide (k ∈ keys)) ∧
        m.nElements = keys.dedup.length) := by
  constructor
  · intro hne
    unfold fromVectors
    rw [if_pos hne]
  · intro hlen
    obtain ⟨hWFr, hInvr, hatr, hcontr⟩ :=
      bracketFold_spec hashFn (keys.zip values) (mkRaw INIT_CAPACITY)
        (mkRaw_WF hashFn INIT_CAPACITY ⟨4, rfl⟩)
        (show 4 * (0 : Nat) ≤ 3 * INIT_CAPACITY by unfold INIT_CAPACITY; omega)
    have hcont2 : ∀ k, containsKey hashFn
        ((keys.zip values).foldl (fun a p => bracketAssign hashFn a p.1 p.2)
          (mkRaw INIT_CAPACITY)) k = decide (k ∈ keys) := by
      intro k
      rw [hcontr k, containsKey_mkRaw, Bool.false_or,
        List.map_fst_zip keys values (le_of_eq hlen)]
    refine ⟨(keys.zip values).foldl (fun a p => bracketAssign hashFn a p.1 p.2)
      (mkRaw INIT_CAPACITY), ?_, ?_, hcont2, ?_⟩
    · unfold fromVectors
      rw [if_neg (fun h => h hlen)]
    · intro k
      rw [hatr k]
      cases hlw : lastWrite k (keys.zip values) with
      | some v => rfl
      | none => exact atKey_mkRaw hashFn INIT_CAPACITY k
    · have hmemiff : ∀ k, k ∈ (toList ((keys.zip values).foldl
          (fun a p => bracketAssign hashFn a p.1 p.2)
          (mkRaw INIT_CAPACITY))).map Prod.fst ↔ k ∈ keys.dedup := by
        intro k
        rw [← containsKey_eq_keys_mem hashFn hWFr k, hcont2 k, List.mem_dedup]
        simp
      have hperm := (List.perm_ext_iff_of_nodup (wf_nodup hashFn hWFr)
        keys.nodup_dedup).mpr hmemiff
      have hleneq := hperm.length_eq
      rw [List.length_map] at hleneq
      rw [wf_count hashFn hWFr, hleneq]

/-- C7 witness: the concrete scenario keys = ["x","x","y"],
values = [10,20,30] (under the string-length hash), and a length mismatch. -/
theorem claim_c7_witness :
    (["x", "x", "y"].length ≠ [10, 20, 30].length →
      fromVectors String.length ["x", "x", "y"] [10, 20, 30]
        = Except.error "HashMap: the input vectors should be in the same size.") ∧
    (["x", "x", "y"].length = [10, 20, 30].length →
      ∃ m, fromVectors String.length ["x", "x", "y"] [10, 20, 30] = Except.ok m ∧
        (∀ k, atKey String.length m k
          = lastWrite k (["x", "x", "y"].zip [10, 20, 30])) ∧
        (∀ k, containsKey String.length m k = decide (k ∈ ["x", "x", "y"])) ∧
        m.nElements = ["x", "x", "y"].dedup.length) :=
  claim_c7 String.length ["x", "x", "y"] [10, 20, 30]

/-- C8: starting from the default capacity-16 table, inserting distinct keys
doubles the capacity exactly once in the first 24 inserts, at the 13th insert
(the first that drives the load factor above 3/4): after n inserts the
capacity is 16 for n ≤ 12 and 32 for 13 ≤ n ≤ 24, so `capacity()` observed
before the crossing insert is 16, after it 32, and no other insert in the
range changes it. -/
theorem claim_c8 (l : List (K × V)) (hnd : (l.map Prod.fst).Nodup)
    (hlen : l.length ≤ 24) :
    ∀ n ≤ l.length,
      ((l.take n).foldl (fun a p => (insert hashFn a p.1 p.2).1)
        (mkDefault : HashMap K V)).capacity = (if n ≤ 12 then 16 else 32) := by
  intro n hn
  exact (insertSeq_facts hashFn l hnd hlen n hn).2.2.2.2

/-- C8 witness: thirteen distinct keys 0..12; capacity is 16 after the first
12 inserts and 32 after the 13th. -/
theorem claim_c8_witness :
    (((((List.range 13).map (fun k => (k, k))).take 12).foldl
      (fun a p => (insert (fun n => n) a p.1 p.2).1)
      (mkDefault : HashMap Nat Nat)).capacity = 16) ∧
    (((((List.range 13).map (fun k => (k, k))).take 13).foldl
      (fun a p => (insert (fun n => n) a p.1 p.2).1)
      (mkDefault : HashMap Nat Nat)).capacity = 32) := by
  constructor
  · have h := claim_c8 (fun n => n) ((List.range 13).map (fun k => (k, k)))
      (by decide) (by decide) 12 (by decide)
    simpa using h
  · have h := claim_c8 (fun n => n) ((List.range 13).map (fun k => (k, k)))
      (by decide) (by decide) 13 (by decide)
    simpa using h

/-- C9: iterating from begin() to end() yields exactly `size()` entries, with
no entry yielded twice, and every yielded pair is a live entry stored in the
bucket its key hashes to (so nothing outside the table is yielded). -/
theorem claim_c9 (m : HashMap K V) (hWF : WF hashFn m) :
    (toList m).length = m.nElements ∧
    (toList m).Nodup ∧
    (∀ p ∈ toList m, p ∈ m.hashTable.getD (hashIdx hashFn m p.1) []) := by
  refine ⟨(wf_count hashFn hWF).symm, ?_, ?_⟩
  · exact (wf_nodup hashFn hWF).of_map
  · intro p hp
    exact mem_bucketOf_of_mem_toList hashFn hWF hp

/-- C9 witness: the two-element table {3 ↦ 7, 5 ↦ 9}. -/
theorem claim_c9_witness :
    (toList (insert (fun n => n) (insert (fun n => n)
      (mkDefault : HashMap Nat Nat) 3 7).1 5 9).1).length
      = (insert (fun n => n) (insert (fun n => n)
        (mkDefault : HashMap Nat Nat) 3 7).1 5 9).1.nElements ∧
    (toList (insert (fun n => n) (insert (fun n => n)
      (mkDefault : HashMap Nat Nat) 3 7).1 5 9).1).Nodup ∧
    (∀ p ∈ toList (insert (fun n => n) (insert (fun n => n)
        (mkDefault : HashMap Nat Nat) 3 7).1 5 9).1,
      p ∈ (insert (fun n => n) (insert (fun n => n)
        (mkDefault : HashMap Nat Nat) 3 7).1 5 9).1.hashTable.getD
          (hashIdx (fun n => n) (insert (fun n => n) (insert (fun n => n)
            (mkDefault : HashMap Nat Nat) 3 7).1 5 9).1 p.1) []) :=
  claim_c9 (fun n => n) (insert (fun n => n) (insert (fun n => n)
    (mkDefault : HashMap Nat Nat) 3 7).1 5 9).1
    ⟨rfl, ⟨4, rfl⟩, rfl, by decide, by decide⟩

/-- C10 (frame): for any present key k2 ↦ v2 and any distinct key k1, both
insert(k1, v1) and erase(k1) leave k2 present with value v2 — including when
the operation triggers a resize, since rehashing re-inserts every remaining
entry. -/
theorem claim_c10 (m : HashMap K V) (k1 k2 : K) (v1 v2 : V)
    (hWF : WF hashFn m) (hInv : LoadInv m) (hne : k1 ≠ k2)
    (hv : atKey hashFn m k2 = some v2) :
    atKey hashFn (insert hashFn m k1 v1).1 k2 = some v2 ∧
    containsKey hashFn (insert hashFn m k1 v1).1 k2 = true ∧
    atKey hashFn (erase hashFn m k1).1 k2 = some v2 ∧
    containsKey hashFn (erase hashFn m k1).1 k2 = true := by
  have hat_ins : atKey hashFn (insert hashFn m k1 v1).1 k2 = some v2 := by
    rw [insert_preserves_atKey hashFn m k1 k2 v1 hWF hInv (fun h => hne h.symm)]
    exact hv
  have hat_er : atKey hashFn (erase hashFn m k1).1 k2 = some v2 := by
    by_cases hc : containsKey hashFn m k1
    · obtain ⟨-, hWF2, -, -, -, ⟨v, hv1, hperm⟩, -⟩ := erase_spec hashFn m k1 hWF hInv hc
      have hmem : (k2, v2) ∈ toList m := (atKey_eq_some_iff hashFn hWF k2 v2).mp hv
      have hmem2 : (k2, v2) ∈ (k1, v) :: toList (erase hashFn m k1).1 :=
        hperm.mem_iff.mp hmem
      rcases List.mem_cons.mp hmem2 with heq | hmem3
      · have hk : k2 = k1 := congrArg Prod.fst heq
        exact absurd hk.symm hne
      · exact (atKey_eq_some_iff hashFn hWF2 k2 v2).mpr hmem3
    · rw [erase_eq_of_not_contains hashFn m k1 (by simpa using hc)]
      exact hv
  refine ⟨hat_ins, ?_, hat_er, ?_⟩
  · rw [containsKey_eq_isSome_atKey, hat_ins]
    rfl
  · rw [containsKey_eq_isSome_atKey, hat_er]
    rfl

/-- C10 witness: the one-element table {3 ↦ 7} with k1 = 5. -/
theorem claim_c10_witness :
    atKey (fun n => n) (insert (fun n => n) (insert (fun n => n)
      (mkDefault : HashMap Nat Nat) 3 7).1 5 1).1 3 = some 7 ∧
    containsKey (fun n => n) (insert (fun n => n) (insert (fun n => n)
      (mkDefault : HashMap Nat Nat) 3 7).1 5 1).1 3 = true ∧
    atKey (fun n => n) (erase (fun n => n) (insert (fun n => n)
      (mkDefault : HashMap Nat Nat) 3 7).1 5).1 3 = some 7 ∧
    containsKey (fun n => n) (erase (fun n => n) (insert (fun n => n)
      (mkDefault : HashMap Nat Nat) 3 7).1 5).1 3 = true :=
  claim_c10 (fun n => n) (insert (fun n => n) (mkDefault : HashMap Nat Nat) 3 7).1 5 3 1 7
    ⟨rfl, ⟨4, rfl⟩, rfl, by decide, by decide⟩ (by unfold LoadInv; decide) (by decide) (by decide)

end HashMapSpec
